import Mathlib

/-!
Verification of the LSM-tree key-value store (`src/lsm_tree.cpp`,
`src/run.cpp`, `src/skip_list.cpp`, `src/bloom_filter.cpp`,
`src/fence_pointers.cpp`) against its natural-language specification.

The C++ engine is shallowly embedded: 64-bit signed keys and values become
`Int` (no arithmetic is ever performed on them, only comparisons and
equality, so overflow is not a concern); `size_t` byte counts become `Nat`;
on-disk runs become in-memory lists of pairs (the file contents); the
`std::mt19937` skip-list height source becomes an explicit oracle stream of
heights carried in the state.  `std::sort` on `KeyValuePair` (ordered by
key only) is embedded as a stable insertion sort; the implementation's own
comments ("most recent values will come last if duplicates exist") and the
specification ("stable-sort by key") both rely on equal-key order being
preserved.
-/

namespace lsm

/-- Key-value pair as in `skip_list.h` / the run file format: two `int64_t`
fields, ordered and compared by key only. -/
structure KeyValuePair where
  key : Int
  value : Int
deriving DecidableEq, Repr

instance : Inhabited KeyValuePair := ⟨⟨0, 0⟩⟩

/-- The tombstone sentinel `INT64_MIN` used by `LSMTree::remove`. -/
def TOMBSTONE : Int := -(2 ^ 63)

/-! ### Sorting (`std::sort` by `KeyValuePair::operator<`, i.e. by key)

`std::sort` guarantees only a key-nondecreasing permutation of its input:
the relative order of equal keys is unspecified, and libstdc++'s introsort
is not stable.  `IsSortResult` states exactly that contract, and theorems
whose content depends on the order of equal keys quantify over it.  To
keep the engine model executable, the engine's own sort calls are
instantiated with `sortPairs`, an insertion sort — one permitted outcome
of the contract; no theorem about equal-key order is drawn from that
choice. -/

/-- Insert one pair into an already-sorted (by key, `≤`) list, after every
element with a key `≤` its own. -/
def insertPair (p : KeyValuePair) : List KeyValuePair → List KeyValuePair
  | [] => [p]
  | q :: qs => if q.key ≤ p.key then q :: insertPair p qs else p :: q :: qs

/-- The deterministic instantiation of
`std::sort(all_pairs.begin(), all_pairs.end())` (key-only `<`) used by the
executable engine model: an insertion sort.  It satisfies `IsSortResult`;
that it is additionally stable is an artifact of this instantiation, not a
guarantee of `std::sort`. -/
def sortPairs (l : List KeyValuePair) : List KeyValuePair :=
  l.foldl (fun acc p => insertPair p acc) []

/-- The contract of the `std::sort` calls (`lsm_tree.cpp` lines 295 and
593): the output is some key-nondecreasing permutation of the input.
Which permutation — in particular the relative order of pairs with equal
keys — is unspecified. -/
def IsSortResult (input output : List KeyValuePair) : Prop :=
  output.Perm input ∧ output.Pairwise fun a b => a.key ≤ b.key

/-- The deduplication loop of `LSMTree::perform_compaction` (lines 601-629)
and of `bulk_load_file` (lines 1117-1144): walk the sorted list tracking the
current key and its latest value; on a key change (and at the end) emit the
tracked pair unless its value is the tombstone. `ck`/`cv` are the loop's
`current_key`/`current_value`. -/
def dedupLast (ck cv : Int) : List KeyValuePair → List KeyValuePair
  | [] => if cv = TOMBSTONE then [] else [⟨ck, cv⟩]
  | p :: ps =>
    if p.key = ck then dedupLast ck p.value ps
    else (if cv = TOMBSTONE then [] else [⟨ck, cv⟩]) ++ dedupLast p.key p.value ps

/-- Sort-then-deduplicate as `perform_compaction` does: sort the gathered
pairs, then keep the last value of every equal-key group, dropping
tombstones.  Empty input yields empty output (the code guards this case). -/
def mergePairs (l : List KeyValuePair) : List KeyValuePair :=
  match sortPairs l with
  | [] => []
  | p :: ps => dedupLast p.key p.value ps

/-- The part of `perform_compaction`'s merge that follows the `std::sort`
call: the keep-last, tombstone-dropping dedup loop applied to whatever
array the sort produced. -/
def mergeAfterSort : List KeyValuePair → List KeyValuePair
  | [] => []
  | p :: ps => dedupLast p.key p.value ps

/-- The walk of `std::unique` holding the first element of the current
equal-key group: skip later members of the group, emit the held element on
a key change. -/
def dedupAdjGo (cur : KeyValuePair) : List KeyValuePair → List KeyValuePair
  | [] => [cur]
  | q :: rest =>
    if q.key = cur.key then dedupAdjGo cur rest else cur :: dedupAdjGo q rest

/-- `std::unique` keeping the first of each adjacent equal-key group, as used
by `LSMTree::range` (lines 302-307). -/
def dedupAdj : List KeyValuePair → List KeyValuePair
  | [] => []
  | p :: ps => dedupAdjGo p ps

/-! ### Bloom filter (`bloom_filter.cpp`)

The bit array and the double-hashing scheme are embedded exactly; 64-bit
unsigned arithmetic is `Nat` reduced modulo `2^64` at every step.  The
stored target false-positive rate is a `double` used only for parameter
sizing at construction time; a constructed filter carries it as eight opaque
bytes (its IEEE-754 representation) which serialization writes and reads
back unchanged.  Parameter sizing itself (`optimal_bits`) is modelled over
the reals further below. -/

/-- `FNV_PRIME` from `constants.h`. -/
def FNV_PRIME : Nat := 1099511628211

/-- `FNV_OFFSET_BASIS` from `constants.h`. -/
def FNV_OFFSET_BASIS : Nat := 14695981039346656037

/-- Two's-complement 64-bit pattern of an `int64_t` value. -/
def u64ofInt (k : Int) : Nat := (k % (2 ^ 64)).toNat

/-- Little-endian bytes of a 64-bit word, as `reinterpret_cast` exposes an
`int64_t` on a little-endian machine. -/
def bytesLE (n : Nat) : List Nat :=
  [n % 256, n / 256 % 256, n / 256 ^ 2 % 256, n / 256 ^ 3 % 256,
   n / 256 ^ 4 % 256, n / 256 ^ 5 % 256, n / 256 ^ 6 % 256, n / 256 ^ 7 % 256]

/-- `BloomFilter::fnv1a_hash`: FNV-1a over the eight key bytes, 64-bit
wrap-around arithmetic. -/
def fnv1a_hash (key : Int) : Nat :=
  (bytesLE (u64ofInt key)).foldl
    (fun h b => ((h ^^^ b) * FNV_PRIME) % 2 ^ 64) FNV_OFFSET_BASIS

/-- Bloom filter state: the target-FPR double is carried as its eight raw
bytes (only ever copied, never interpreted), mirroring the class fields. -/
structure BloomFilter where
  fprBytes : List Nat
  expected_num_elements : Nat
  num_hash_functions : Nat
  bits : List Bool
deriving DecidableEq, Repr

/-- `BloomFilter::hash`: double hashing `(h1 + i*h2) mod m` where `h2` is
FNV-1a of the complemented key (`~key` is `-key - 1` in two's complement). -/
def BloomFilter.hash (bf : BloomFilter) (key : Int) (i : Nat) : Nat :=
  ((fnv1a_hash key + i * fnv1a_hash (-key - 1)) % 2 ^ 64) % bf.bits.length

/-- `BloomFilter::insert`: set bit `hash(key, i)` for every `i < k`. -/
def BloomFilter.insert (bf : BloomFilter) (key : Int) : BloomFilter :=
  { bf with
    bits := (List.range bf.num_hash_functions).foldl
      (fun bs i => bs.set (bf.hash key i) true) bf.bits }

/-- `BloomFilter::might_contain`: all `k` probed bits are set. -/
def BloomFilter.might_contain (bf : BloomFilter) (key : Int) : Bool :=
  (List.range bf.num_hash_functions).all fun i => bf.bits.getD (bf.hash key i) false

/-- Insert a sequence of keys, as `Run::create_metadata` does for the data
pairs of a run. -/
def insertKeys (bf : BloomFilter) (keys : List Int) : BloomFilter :=
  keys.foldl BloomFilter.insert bf

/-! #### Basic Bloom-filter lemmas -/

theorem BloomFilter.length_bits_insert (bf : BloomFilter) (key : Int) :
    (bf.insert key).bits.length = bf.bits.length := by
  unfold BloomFilter.insert
  generalize List.range bf.num_hash_functions = l
  induction l generalizing bf with
  | nil => rfl
  | cons i is ih =>
    simp only [List.foldl_cons]
    have h := ih { bf with bits := bf.bits.set (bf.hash key i) true }
    simp only [BloomFilter.hash] at *
    simpa [List.length_set] using h

theorem BloomFilter.hash_lt (bf : BloomFilter) (key : Int) (i : Nat)
    (h : bf.bits ≠ []) : bf.hash key i < bf.bits.length := by
  have : 0 < bf.bits.length := List.length_pos.mpr h
  exact Nat.mod_lt _ this

/-- Setting bits to `true` never clears a set bit. -/
theorem getD_set_true_mono (bs : List Bool) (i j : Nat)
    (h : bs.getD j false = true) : (bs.set i true).getD j false = true := by
  by_cases hij : i = j
  · subst hij
    by_cases hlt : i < bs.length
    · rw [List.getD_eq_getElem?_getD, List.getElem?_set_self hlt]
      rfl
    · rw [List.set_eq_of_length_le (Nat.le_of_not_lt hlt)]
      exact h
  · rw [List.getD_eq_getElem?_getD, List.getElem?_set_ne hij,
      ← List.getD_eq_getElem?_getD]
    exact h

theorem getD_set_true_self (bs : List Bool) (i : Nat) (h : i < bs.length) :
    (bs.set i true).getD i false = true := by
  rw [List.getD_eq_getElem?_getD, List.getElem?_set_self h]
  rfl

/-- Folding bit-sets over an index list leaves previously-set bits set and
sets every listed in-range index. -/
theorem foldl_set_true_getD (idxs : List Nat) (bs : List Bool) (j : Nat)
    (h : (j ∈ idxs ∧ j < bs.length) ∨ bs.getD j false = true) :
    (idxs.foldl (fun b i => b.set i true) bs).getD j false = true := by
  induction idxs generalizing bs with
  | nil =>
    rcases h with ⟨hmem, _⟩ | htrue
    · simp at hmem
    · simpa using htrue
  | cons i is ih =>
    simp only [List.foldl_cons]
    rcases h with ⟨hmem, hlt⟩ | htrue
    · rcases List.mem_cons.mp hmem with rfl | hmem'
      · exact ih _ (Or.inr (getD_set_true_self bs j hlt))
      · exact ih _ (Or.inl ⟨hmem', by simpa [List.length_set] using hlt⟩)
    · exact ih _ (Or.inr (getD_set_true_mono bs i j htrue))

/-- After inserting a key, every probe bit of that key is set; and bits set
beforehand stay set. -/
theorem BloomFilter.insert_getD (bf : BloomFilter) (key : Int) (j : Nat)
    (h : (∃ i < bf.num_hash_functions, j = bf.hash key i ∧ j < bf.bits.length) ∨
      bf.bits.getD j false = true) :
    (bf.insert key).bits.getD j false = true := by
  show (List.foldl (fun bs i => bs.set (bf.hash key i) true) bf.bits
      (List.range bf.num_hash_functions)).getD j false = true
  have heq : List.foldl (fun bs i => bs.set (bf.hash key i) true) bf.bits
      (List.range bf.num_hash_functions) =
      List.foldl (fun b i => b.set i true) bf.bits
        ((List.range bf.num_hash_functions).map (bf.hash key)) :=
    (List.foldl_map (bf.hash key) (fun (b : List Bool) (i : Nat) => b.set i true)
      (List.range bf.num_hash_functions) bf.bits).symm
  rw [heq]
  apply foldl_set_true_getD
  rcases h with ⟨i, hi, rfl, hlt⟩ | htrue
  · exact Or.inl ⟨List.mem_map.mpr ⟨i, List.mem_range.mpr hi, rfl⟩, hlt⟩
  · exact Or.inr htrue

/-- `insert` preserves every field except the bit array, and preserves the
bit array's length; in particular all hash values are unchanged. -/
theorem BloomFilter.insert_fields (bf : BloomFilter) (key : Int) :
    (bf.insert key).fprBytes = bf.fprBytes ∧
    (bf.insert key).expected_num_elements = bf.expected_num_elements ∧
    (bf.insert key).num_hash_functions = bf.num_hash_functions := by
  refine ⟨rfl, rfl, rfl⟩

theorem BloomFilter.hash_insert (bf : BloomFilter) (key k : Int) (i : Nat) :
    (bf.insert key).hash k i = bf.hash k i := by
  unfold BloomFilter.hash
  rw [BloomFilter.length_bits_insert]

/-- A key just inserted is reported present (given a non-empty bit array). -/
theorem BloomFilter.might_contain_insert_self (bf : BloomFilter) (key : Int)
    (h : bf.bits ≠ []) : (bf.insert key).might_contain key = true := by
  unfold BloomFilter.might_contain
  rw [List.all_eq_true]
  intro i hi
  rw [List.mem_range] at hi
  rw [BloomFilter.hash_insert]
  exact BloomFilter.insert_getD bf key _
    (Or.inl ⟨i, by simpa [BloomFilter.insert] using hi, rfl, bf.hash_lt key i h⟩)

/-- Membership is monotone under further insertions. -/
theorem BloomFilter.might_contain_insert_mono (bf : BloomFilter) (key k : Int)
    (h : bf.might_contain k = true) : (bf.insert key).might_contain k = true := by
  unfold BloomFilter.might_contain at h ⊢
  rw [List.all_eq_true] at h ⊢
  intro i hi
  have hi' : i ∈ List.range bf.num_hash_functions := by
    simpa [BloomFilter.insert] using hi
  rw [BloomFilter.hash_insert]
  exact BloomFilter.insert_getD bf key _ (Or.inr (h i hi'))

theorem insertKeys_bits_ne_nil (bf : BloomFilter) (keys : List Int)
    (h : bf.bits ≠ []) : (insertKeys bf keys).bits ≠ [] := by
  induction keys generalizing bf with
  | nil => exact h
  | cons k ks ih =>
    apply ih
    intro hnil
    have := BloomFilter.length_bits_insert bf k
    rw [hnil] at this
    exact h (List.eq_nil_of_length_eq_zero this.symm)

theorem insertKeys_might_contain (bf : BloomFilter) (keys : List Int) (k : Int)
    (hne : bf.bits ≠ []) (hmem : k ∈ keys) :
    (insertKeys bf keys).might_contain k = true := by
  induction keys generalizing bf with
  | nil => simp at hmem
  | cons key rest ih =>
    rcases List.mem_cons.mp hmem with rfl | hmem'
    · -- the key is inserted first, then later insertions preserve its bits
      clear hmem ih
      have hself := bf.might_contain_insert_self k hne
      show (insertKeys (bf.insert k) rest).might_contain k = true
      generalize hbf' : bf.insert k = bf' at hself
      clear hbf'
      induction rest generalizing bf' with
      | nil => exact hself
      | cons key2 rest2 ih2 =>
        exact ih2 _ (bf'.might_contain_insert_mono key2 k hself)
    · exact ih _ (by
        intro hnil
        have := BloomFilter.length_bits_insert bf key
        rw [hnil] at this
        exact hne (List.eq_nil_of_length_eq_zero this.symm)) hmem'

/-! ### Bloom filter serialization (`BloomFilter::save` / load constructor)

Files are byte lists.  `save` writes the stored fpr double (8 bytes), the
expected element count, the hash-function count and the bit count as 64-bit
little-endian words, then the bit array packed 8 bits per byte with bit
`i` at byte `i / 8`, position `i % 8`.  The loading constructor reads the
same layout back. -/

/-- Little-endian serialization of a 64-bit word. -/
def u64le (n : Nat) : List Nat := bytesLE n

/-- Reading a 64-bit little-endian word from a byte list. -/
def parseU64 (b : List Nat) : Nat :=
  b.getD 0 0 + b.getD 1 0 * 256 + b.getD 2 0 * 256 ^ 2 + b.getD 3 0 * 256 ^ 3 +
  b.getD 4 0 * 256 ^ 4 + b.getD 5 0 * 256 ^ 5 + b.getD 6 0 * 256 ^ 6 +
  b.getD 7 0 * 256 ^ 7

/-- Value of a byte assembled from eight bit flags, least significant
first. -/
def byteVal8 (b0 b1 b2 b3 b4 b5 b6 b7 : Bool) : Nat :=
  (if b0 then 1 else 0) + (if b1 then 2 else 0) +
  (if b2 then 4 else 0) + (if b3 then 8 else 0) +
  (if b4 then 16 else 0) + (if b5 then 32 else 0) +
  (if b6 then 64 else 0) + (if b7 then 128 else 0)

/-- Value of one packed byte: `buffer[byte_index] |= (1 << bit_index)` over
the (up to eight) bits of one chunk. -/
def byteVal (b : List Bool) : Nat :=
  byteVal8 (b.getD 0 false) (b.getD 1 false) (b.getD 2 false) (b.getD 3 false)
    (b.getD 4 false) (b.getD 5 false) (b.getD 6 false) (b.getD 7 false)

/-- Pack a bit list into bytes, eight bits per byte, least significant first:
the save loop's `buffer[i / 8] |= (1 << (i % 8))`. -/
def packBits (bits : List Bool) : List Nat :=
  if bits = [] then []
  else byteVal (bits.take 8) :: packBits (bits.drop 8)
termination_by bits.length
decreasing_by
  simp only [List.length_drop]
  have : bits.length ≠ 0 := fun h => by
    simp [List.eq_nil_of_length_eq_zero h] at *
  omega

/-- `BloomFilter::save`: metadata then packed bits. -/
def BloomFilter.save (bf : BloomFilter) : List Nat :=
  bf.fprBytes ++ u64le bf.expected_num_elements ++ u64le bf.num_hash_functions ++
    u64le bf.bits.length ++ packBits bf.bits

/-- The loading constructor `BloomFilter::BloomFilter(filename)`: read fpr
bytes, counts, then unpack `bit_count` bits via
`buffer[i / 8] & (1 << (i % 8))`; fail (`throw`) if the stream runs short. -/
def loadBloomFilter (file : List Nat) : Option BloomFilter :=
  if file.length < 32 then none
  else
    let fprB := file.take 8
    let n := parseU64 ((file.drop 8).take 8)
    let k := parseU64 ((file.drop 16).take 8)
    let bitCount := parseU64 ((file.drop 24).take 8)
    let byteCount := (bitCount + 7) / 8
    if (file.drop 32).length < byteCount then none
    else
      let buf := (file.drop 32).take byteCount
      some ⟨fprB, n, k,
        (List.range bitCount).map fun i =>
          decide (buf.getD (i / 8) 0 &&& (1 <<< (i % 8)) ≠ 0)⟩

/-! #### Serialization roundtrip lemmas -/

theorem parseU64_u64le (n : Nat) (h : n < 2 ^ 64) : parseU64 (u64le n) = n := by
  show n % 256 + n / 256 % 256 * 256 + n / 256 ^ 2 % 256 * 256 ^ 2 +
      n / 256 ^ 3 % 256 * 256 ^ 3 + n / 256 ^ 4 % 256 * 256 ^ 4 +
      n / 256 ^ 5 % 256 * 256 ^ 5 + n / 256 ^ 6 % 256 * 256 ^ 6 +
      n / 256 ^ 7 % 256 * 256 ^ 7 = n
  omega

theorem length_u64le (n : Nat) : (u64le n).length = 8 := rfl

theorem byteVal8_bit :
    ∀ (b0 b1 b2 b3 b4 b5 b6 b7 : Bool) (s : Fin 8),
      decide (byteVal8 b0 b1 b2 b3 b4 b5 b6 b7 &&& (1 <<< (s : Nat)) ≠ 0) =
        [b0, b1, b2, b3, b4, b5, b6, b7].getD (s : Nat) false := by
  decide

theorem byteVal_bit (b : List Bool) (r : Nat) (hr : r < 8) :
    decide (byteVal b &&& (1 <<< r) ≠ 0) = b.getD r false := by
  have h := byteVal8_bit (b.getD 0 false) (b.getD 1 false) (b.getD 2 false)
    (b.getD 3 false) (b.getD 4 false) (b.getD 5 false) (b.getD 6 false)
    (b.getD 7 false) ⟨r, hr⟩
  rw [byteVal]
  rw [h]
  interval_cases r <;> rfl

theorem getD_take_of_lt (l : List Bool) (n i : Nat) (h : i < n) :
    (l.take n).getD i false = l.getD i false := by
  rw [List.getD_eq_getElem?_getD, List.getD_eq_getElem?_getD, List.getElem?_take,
    if_pos h]

theorem packBits_length (bits : List Bool) :
    (packBits bits).length = (bits.length + 7) / 8 := by
  rw [packBits]
  by_cases h : bits = []
  · subst h; rfl
  · rw [if_neg h]
    have hlen : bits.length ≠ 0 := fun hc => h (List.eq_nil_of_length_eq_zero hc)
    have ih := packBits_length (bits.drop 8)
    simp only [List.length_cons, ih, List.length_drop]
    omega
termination_by bits.length
decreasing_by
  simp only [List.length_drop]
  have : bits.length ≠ 0 := fun hc => h (List.eq_nil_of_length_eq_zero hc)
  omega

theorem packBits_bit (bits : List Bool) (i : Nat) (hi : i < bits.length) :
    decide ((packBits bits).getD (i / 8) 0 &&& (1 <<< (i % 8)) ≠ 0) =
      bits.getD i false := by
  rw [packBits]
  have hne : bits ≠ [] := by
    intro h; subst h; simp at hi
  rw [if_neg hne]
  by_cases h8 : i < 8
  · rw [Nat.div_eq_of_lt h8, Nat.mod_eq_of_lt h8]
    show decide (byteVal (bits.take 8) &&& (1 <<< i) ≠ 0) = bits.getD i false
    rw [byteVal_bit _ i h8, getD_take_of_lt _ _ _ h8]
  · have hlen : i - 8 < (bits.drop 8).length := by
      simp only [List.length_drop]; omega
    have ih := packBits_bit (bits.drop 8) (i - 8) hlen
    have hdiv : i / 8 = (i - 8) / 8 + 1 := by omega
    have hmod : i % 8 = (i - 8) % 8 := by omega
    rw [hdiv, hmod]
    show decide ((packBits (bits.drop 8)).getD ((i - 8) / 8) 0 &&&
      (1 <<< ((i - 8) % 8)) ≠ 0) = bits.getD i false
    rw [ih, List.getD_eq_getElem?_getD, List.getD_eq_getElem?_getD,
      List.getElem?_drop]
    congr 2
    omega
termination_by bits.length
decreasing_by
  simp only [List.length_drop]
  omega

theorem map_range_getD (l : List Bool) :
    ((List.range l.length).map fun i => l.getD i false) = l := by
  apply List.ext_getElem
  · simp
  · intro n h1 h2
    rw [List.getElem_map]
    rw [List.getElem_range]
    rw [List.getD_eq_getElem?_getD, List.getElem?_eq_getElem h2]
    rfl

/-- Saving and re-loading a Bloom filter reproduces it exactly, provided its
fields fit their on-disk 64-bit encodings. -/
theorem loadBloomFilter_save (bf : BloomFilter) (h8 : bf.fprBytes.length = 8)
    (hn : bf.expected_num_elements < 2 ^ 64)
    (hk : bf.num_hash_functions < 2 ^ 64) (hb : bf.bits.length < 2 ^ 64) :
    loadBloomFilter bf.save = some bf := by
  have hsave : bf.save = bf.fprBytes ++ (u64le bf.expected_num_elements ++
      (u64le bf.num_hash_functions ++ (u64le bf.bits.length ++
        packBits bf.bits))) := by
    simp [BloomFilter.save]
  have htake8 : bf.save.take 8 = bf.fprBytes := by
    rw [hsave, List.take_left' h8]
  have hdrop8 : bf.save.drop 8 = u64le bf.expected_num_elements ++
      (u64le bf.num_hash_functions ++ (u64le bf.bits.length ++
        packBits bf.bits)) := by
    rw [hsave, List.drop_left' h8]
  have hdrop16 : bf.save.drop 16 = u64le bf.num_hash_functions ++
      (u64le bf.bits.length ++ packBits bf.bits) := by
    rw [show (16 : Nat) = 8 + 8 from rfl, ← List.drop_drop, hdrop8,
      List.drop_left' (length_u64le _)]
  have hdrop24 : bf.save.drop 24 = u64le bf.bits.length ++ packBits bf.bits := by
    rw [show (24 : Nat) = 16 + 8 from rfl, ← List.drop_drop, hdrop16,
      List.drop_left' (length_u64le _)]
  have hdrop32 : bf.save.drop 32 = packBits bf.bits := by
    rw [show (32 : Nat) = 24 + 8 from rfl, ← List.drop_drop, hdrop24,
      List.drop_left' (length_u64le _)]
  have hlen32 : bf.save.length = 32 + (packBits bf.bits).length := by
    rw [hsave]
    simp [length_u64le, h8]
    omega
  unfold loadBloomFilter
  rw [if_neg (by omega)]
  have hA : (bf.save.drop 8).take 8 = u64le bf.expected_num_elements := by
    rw [hdrop8, List.take_left' (length_u64le _)]
  have hB : (bf.save.drop 16).take 8 = u64le bf.num_hash_functions := by
    rw [hdrop16, List.take_left' (length_u64le _)]
  have hC : (bf.save.drop 24).take 8 = u64le bf.bits.length := by
    rw [hdrop24, List.take_left' (length_u64le _)]
  simp only [htake8, hA, hB, hC, hdrop32, parseU64_u64le _ hn, parseU64_u64le _ hk,
    parseU64_u64le _ hb]
  rw [if_neg (by rw [packBits_length]; omega)]
  have hbuf : (packBits bf.bits).take ((bf.bits.length + 7) / 8) =
      packBits bf.bits := by
    apply List.take_of_length_le
    rw [packBits_length]
  rw [hbuf]
  congr 1
  cases bf with
  | mk fprB n k bits =>
    simp only
    congr 1
    have : ((List.range bits.length).map fun i =>
        decide ((packBits bits).getD (i / 8) 0 &&& (1 <<< (i % 8)) ≠ 0)) =
        (List.range bits.length).map fun i => bits.getD i false := by
      apply List.map_congr_left
      intro i hi
      exact packBits_bit bits i (List.mem_range.mp hi)
    rw [this, map_range_getD]

theorem insertKeys_fields (bf : BloomFilter) (keys : List Int) :
    (insertKeys bf keys).fprBytes = bf.fprBytes ∧
    (insertKeys bf keys).expected_num_elements = bf.expected_num_elements ∧
    (insertKeys bf keys).num_hash_functions = bf.num_hash_functions ∧
    (insertKeys bf keys).bits.length = bf.bits.length := by
  induction keys generalizing bf with
  | nil => exact ⟨rfl, rfl, rfl, rfl⟩
  | cons k ks ih =>
    have h := ih (bf.insert k)
    simp only [insertKeys, List.foldl_cons] at h ⊢
    refine ⟨h.1, h.2.1, h.2.2.1, ?_⟩
    rw [h.2.2.2, BloomFilter.length_bits_insert]

/-- C7: for every Bloom filter with a non-empty bit array and every key
inserted into it, a later `might_contain` on that key returns `true`: the
filter never yields a false negative for an inserted key. -/
theorem c7_bloom_no_false_negative (bf : BloomFilter) (keys : List Int)
    (k : Int) (hne : bf.bits ≠ []) (hmem : k ∈ keys) :
    (insertKeys bf keys).might_contain k = true :=
  insertKeys_might_contain bf keys k hne hmem

theorem c7_bloom_no_false_negative_witness :
    (⟨[], 1, 2, List.replicate 16 false⟩ : BloomFilter).bits ≠ [] ∧
      (7 : Int) ∈ [(3 : Int), 7, 11] ∧
      (insertKeys ⟨[], 1, 2, List.replicate 16 false⟩ [3, 7, 11]).might_contain 7
        = true :=
  ⟨by decide, by decide,
    c7_bloom_no_false_negative ⟨[], 1, 2, List.replicate 16 false⟩ [3, 7, 11] 7
      (by decide) (by decide)⟩

/-- C8: saving a Bloom filter to its file format and loading it back
preserves membership of every key inserted before the save. -/
theorem c8_bloom_save_load_roundtrip (bf : BloomFilter) (keys : List Int)
    (k : Int) (h8 : bf.fprBytes.length = 8)
    (hn : bf.expected_num_elements < 2 ^ 64)
    (hk : bf.num_hash_functions < 2 ^ 64) (hb : bf.bits.length < 2 ^ 64)
    (hne : bf.bits ≠ []) (hmem : k ∈ keys) :
    (loadBloomFilter (insertKeys bf keys).save).map
      (fun bf2 => bf2.might_contain k) = some true := by
  have hf := insertKeys_fields bf keys
  have hround := loadBloomFilter_save (insertKeys bf keys)
    (by rw [hf.1]; exact h8) (by rw [hf.2.1]; exact hn)
    (by rw [hf.2.2.1]; exact hk) (by rw [hf.2.2.2]; exact hb)
  rw [hround]
  show some ((insertKeys bf keys).might_contain k) = some true
  rw [insertKeys_might_contain bf keys k hne hmem]

theorem c8_bloom_save_load_roundtrip_witness :
    (loadBloomFilter
      (insertKeys ⟨[0, 0, 0, 0, 0, 0, 0, 0], 1, 2, List.replicate 16 false⟩
        [5]).save).map
      (fun bf2 => bf2.might_contain 5) = some true :=
  c8_bloom_save_load_roundtrip
    ⟨[0, 0, 0, 0, 0, 0, 0, 0], 1, 2, List.replicate 16 false⟩ [5] 5
    (by decide) (by decide) (by decide) (by decide) (by decide) (by decide)

/-! ### Fence pointers (`fence_pointers.cpp`) -/

/-- One `(key, offset)` index entry. -/
structure FencePointer where
  key : Int
  offset : Nat
deriving DecidableEq, Repr

instance : Inhabited FencePointer := ⟨⟨0, 0⟩⟩

/-- `PAGE_SIZE` from `constants.h`. -/
def PAGE_SIZE : Nat := 4096

/-- The fence-building loop of the `FencePointers` constructor: emit an
entry whenever the byte offset enters a new page (or the index is still
empty); `current_page` starts at 0 and is updated only when an entry is
emitted. -/
def buildFencesLoop (curPage : Nat) (acc : List FencePointer) :
    List (Int × Nat) → List FencePointer
  | [] => acc.reverse
  | (k, off) :: rest =>
    let page := off / PAGE_SIZE
    if page > curPage ∨ acc = [] then
      buildFencesLoop page (⟨k, off⟩ :: acc) rest
    else
      buildFencesLoop curPage acc rest

/-- Fence pointers of a run built from its pairs, whose byte offsets are
`16 * index` (`Run::create_metadata`). -/
def buildFences (data : List KeyValuePair) : List FencePointer :=
  buildFencesLoop 0 []
    ((List.range data.length).map fun i => ((data.getD i default).key, 16 * i))

/-- The binary-search loop of `FencePointers::binary_search` (lines 155-170):
ceiling midpoint, narrowing to the largest entry with `key ≤ search key`. -/
def bsLoop (fps : List FencePointer) (key : Int) (left right : Nat) : Nat :=
  if h : left < right then
    let mid := left + (right - left + 1) / 2
    if (fps.getD mid default).key ≤ key then bsLoop fps key mid right
    else bsLoop fps key left (mid - 1)
  else left
termination_by right - left
decreasing_by
  · omega
  · omega

/-- `FencePointers::binary_search`: the boundary short-cuts, then the loop. -/
def binary_search (fps : List FencePointer) (key : Int) : Nat :=
  if key < (fps.headD default).key then 0
  else if (fps.getLastD default).key ≤ key then fps.length - 1
  else bsLoop fps key 0 (fps.length - 1)

/-- `FencePointers::find_offset`: offset 0 on an empty index, otherwise the
offset of the entry the binary search lands on. -/
def find_offset (fps : List FencePointer) (key : Int) : Nat :=
  if fps = [] then 0 else (fps.getD (binary_search fps key) default).offset

/-- `FencePointers::find_range_offsets`: start offset from the start key's
entry; end bound is the next entry after the end key's entry, or unbounded
(`SIZE_MAX`, here `none`) when the end key lands on the last entry. -/
def find_range_offsets (fps : List FencePointer) (startKey endKey : Int) :
    Nat × Option Nat :=
  if fps = [] then (0, some 0)
  else
    let si := binary_search fps startKey
    let ei := binary_search fps endKey
    ((fps.getD si default).offset,
      if ei = fps.length - 1 then none else some (fps.getD (ei + 1) default).offset)

/-- Restatement of the specification's description of `find_offset`, for
comparison: the offset of the largest (i.e. last, on a sorted index) entry
with `entry.key ≤ key`, or the first entry's offset when the key is below
every index key. -/
def specFindOffset (fps : List FencePointer) (key : Int) : Nat :=
  match (fps.filter fun e => decide (e.key ≤ key)).getLast? with
  | some e => e.offset
  | none => (fps.headD default).offset

theorem bsLoop_correct (fps : List FencePointer) (key : Int)
    (hp : fps.Pairwise fun a b => a.key < b.key) (left right : Nat)
    (hlr : left ≤ right) (hr : right < fps.length)
    (hleft : (fps.getD left default).key ≤ key)
    (hright : ∀ j, right < j → j < fps.length → key < (fps.getD j default).key) :
    left ≤ bsLoop fps key left right ∧ bsLoop fps key left right ≤ right ∧
      (fps.getD (bsLoop fps key left right) default).key ≤ key ∧
      (∀ j, bsLoop fps key left right < j → j < fps.length →
        key < (fps.getD j default).key) := by
  rw [bsLoop]
  by_cases h : left < right
  · rw [dif_pos h]
    by_cases hmid : (fps.getD (left + (right - left + 1) / 2) default).key ≤ key
    · rw [if_pos hmid]
      have := bsLoop_correct fps key hp (left + (right - left + 1) / 2) right
        (by omega) hr hmid hright
      exact ⟨by omega, this.2.1, this.2.2.1, this.2.2.2⟩
    · rw [if_neg hmid]
      have hmidlt : left + (right - left + 1) / 2 < fps.length := by omega
      have hmid' : key < (fps.getD (left + (right - left + 1) / 2) default).key :=
        lt_of_not_le hmid
      have hafter : ∀ j, left + (right - left + 1) / 2 - 1 < j →
          j < fps.length → key < (fps.getD j default).key := by
        intro j hj hjlen
        by_cases hjr : right < j
        · exact hright j hjr hjlen
        · have hle : left + (right - left + 1) / 2 ≤ j := by omega
          rcases Nat.eq_or_lt_of_le hle with heq | hlt
          · rw [← heq]
            exact hmid'
          · have hord := List.pairwise_iff_getElem.mp hp
              (left + (right - left + 1) / 2) j hmidlt hjlen hlt
            rw [List.getD_eq_getElem _ _ hjlen]
            rw [List.getD_eq_getElem _ _ hmidlt] at hmid'
            exact hmid'.trans hord
      have := bsLoop_correct fps key hp left (left + (right - left + 1) / 2 - 1)
        (by omega) (by omega) hleft hafter
      exact ⟨this.1, by omega, this.2.2.1, this.2.2.2⟩
  · rw [dif_neg h]
    have heq : left = right := by omega
    subst heq
    exact ⟨Nat.le_refl _, Nat.le_refl _, hleft, hright⟩
termination_by right - left
decreasing_by
  · omega
  · omega

theorem filter_getLast?_eq (l : List FencePointer) (p : FencePointer → Bool)
    (i : Nat) (hi : i < l.length) (hpi : p (l.getD i default) = true)
    (hafter : ∀ j, i < j → j < l.length → p (l.getD j default) = false) :
    (l.filter p).getLast? = some (l.getD i default) := by
  induction l generalizing i with
  | nil => simp at hi
  | cons a rest ih =>
    cases i with
    | zero =>
      have hpa : p a = true := hpi
      have hrest : rest.filter p = [] := by
        rw [List.filter_eq_nil_iff]
        intro x hx
        obtain ⟨j, hj, rfl⟩ := List.mem_iff_getElem.mp hx
        have := hafter (j + 1) (Nat.succ_pos j) (by simpa using Nat.succ_lt_succ hj)
        rw [show ((a :: rest).getD (j + 1) default) = rest.getD j default from rfl,
          List.getD_eq_getElem _ _ hj] at this
        simp [this]
      rw [List.filter_cons_of_pos hpa, hrest]
      rfl
    | succ i' =>
      have hi' : i' < rest.length := by simpa using Nat.lt_of_succ_lt_succ hi
      have hrest := ih i' hi' hpi fun j hj hjlen =>
        hafter (j + 1) (Nat.succ_lt_succ hj) (by simpa using Nat.succ_lt_succ hjlen)
      have hne : rest.filter p ≠ [] := by
        intro hnil
        rw [hnil] at hrest
        simp at hrest
      show ((a :: rest).filter p).getLast? = some (rest.getD i' default)
      by_cases hpa : p a = true
      · rw [List.filter_cons_of_pos hpa]
        obtain ⟨x, xs, hxs⟩ := List.exists_cons_of_ne_nil hne
        rw [hxs]
        rw [List.getLast?_cons_cons]
        rw [← hxs]
        exact hrest
      · rw [List.filter_cons_of_neg (by simpa using hpa)]
        exact hrest

/-- The head of a non-empty list as `getD 0`. -/
theorem headD_eq_getD_zero (l : List FencePointer) :
    l.headD default = l.getD 0 default := by
  cases l with
  | nil => rfl
  | cons a as => rfl

theorem getLastD_eq_getD (l : List FencePointer) (_h : l ≠ []) :
    l.getLastD default = l.getD (l.length - 1) default := by
  rw [List.getLastD_eq_getLast?, List.getLast?_eq_getElem?,
    List.getD_eq_getElem?_getD]

/-- C9: on a non-empty, strictly ascending fence index, `find_offset`
returns the offset of the largest entry with key `≤` the probe (the last
entry's offset when the probe is at or above every key), and the first
entry's offset when the probe is below every key — the specification's
description `specFindOffset`. -/
theorem c9_find_offset_correct (fps : List FencePointer) (key : Int)
    (hne : fps ≠ []) (hsorted : fps.Chain' fun a b => a.key < b.key) :
    find_offset fps key = specFindOffset fps key := by
  haveI : IsTrans FencePointer (fun a b => a.key < b.key) :=
    ⟨fun a b c hab hbc => hab.trans hbc⟩
  have hp : fps.Pairwise fun a b => a.key < b.key :=
    List.chain'_iff_pairwise.mp hsorted
  have hlen : 0 < fps.length := List.length_pos.mpr hne
  rw [find_offset, if_neg hne, binary_search]
  by_cases hA : key < (fps.headD default).key
  · rw [if_pos hA]
    have hfilter : fps.filter (fun e => decide (e.key ≤ key)) = [] := by
      rw [List.filter_eq_nil_iff]
      intro e he
      obtain ⟨j, hj, rfl⟩ := List.mem_iff_getElem.mp he
      rw [headD_eq_getD_zero, List.getD_eq_getElem _ _ hlen] at hA
      rcases Nat.eq_zero_or_pos j with rfl | hjpos
      · simp only [decide_eq_true_eq]
        omega
      · have := List.pairwise_iff_getElem.mp hp 0 j hlen hj hjpos
        simp only [decide_eq_true_eq]
        omega
    rw [specFindOffset, hfilter]
    rw [headD_eq_getD_zero]
    rfl
  · rw [if_neg hA]
    by_cases hB : (fps.getLastD default).key ≤ key
    · rw [if_pos hB]
      have hlast : fps.getD (fps.length - 1) default =
          fps.getLastD default := (getLastD_eq_getD fps hne).symm
      have := filter_getLast?_eq fps (fun e => decide (e.key ≤ key))
        (fps.length - 1) (by omega)
        (by rw [hlast]; simpa using hB)
        (fun j hj hjlen => by omega)
      rw [specFindOffset, this]
    · rw [if_neg hB]
      have hleft : (fps.getD 0 default).key ≤ key := by
        rw [headD_eq_getD_zero] at hA
        exact le_of_not_lt hA
      have hres := bsLoop_correct fps key hp 0 (fps.length - 1) (by omega)
        (by omega) hleft (fun j hj hjlen => by omega)
      have hreslt : bsLoop fps key 0 (fps.length - 1) < fps.length := by
        have := hres.2.1
        omega
      have := filter_getLast?_eq fps (fun e => decide (e.key ≤ key))
        (bsLoop fps key 0 (fps.length - 1)) hreslt
        (by simpa using hres.2.2.1)
        (fun j hj hjlen => by
          have := hres.2.2.2 j hj hjlen
          simp only [decide_eq_false_iff_not]
          omega)
      rw [specFindOffset, this]

theorem c9_find_offset_correct_witness :
    ([⟨1, 0⟩, ⟨5, 32⟩, ⟨9, 64⟩] : List FencePointer) ≠ [] ∧
      find_offset [⟨1, 0⟩, ⟨5, 32⟩, ⟨9, 64⟩] 6 =
        specFindOffset [⟨1, 0⟩, ⟨5, 32⟩, ⟨9, 64⟩] 6 :=
  ⟨by decide,
    c9_find_offset_correct [⟨1, 0⟩, ⟨5, 32⟩, ⟨9, 64⟩] 6 (by decide)
      (by simp [List.chain'_cons])⟩

/-! ### Run read path (`run.cpp`)

A run is its data-file contents: a list of pairs; the pair at index `i`
starts at byte offset `16 * i`.  `Run::get` and `Run::range` seek to a
fence-pointer offset and scan forward.  The engine-level model consults
`Run::get` directly without the Bloom-filter pre-check of `LSMTree::get`:
a run's filter contains every key stored in the run (no false negatives,
claim C7), so the pre-check can only skip runs for which `Run::get` would
return "not found" anyway, and a false positive merely falls through to
`Run::get`. -/

/-- The scan loop of `Run::get` (lines 88-100): stop with the value on an
exact match, stop empty once a larger key is seen. -/
def scanGet : List KeyValuePair → Int → Option Int
  | [], _ => none
  | p :: ps, k =>
    if p.key = k then some p.value
    else if p.key > k then none
    else scanGet ps k

/-- `Run::get`: seek to `fence.find_offset(key)` and scan forward. -/
def runGet (data : List KeyValuePair) (key : Int) : Option Int :=
  let off := find_offset (buildFences data) key
  scanGet (data.drop (off / 16)) key

/-- The scan loop of `Run::range` (lines 136-158): after reading a pair the
stream position is `pos + 16`; stop when it passes a bounded end offset,
emit pairs inside `[s, e)`, stop after a key `≥ e`. -/
def rangeStop (pos : Nat) : Option Nat → Bool
  | some b => decide (pos + 16 > b)
  | none => false

def scanRange : List KeyValuePair → Nat → Int → Int → Option Nat →
    List KeyValuePair
  | [], _, _, _, _ => []
  | p :: ps, pos, s, e, bound =>
    if rangeStop pos bound then []
    else
      (if s ≤ p.key ∧ p.key < e then [p] else []) ++
        (if e ≤ p.key then [] else scanRange ps (pos + 16) s e bound)

/-- `Run::range`: empty on `start ≥ end`, else scan from the fence range
offsets. -/
def runRange (data : List KeyValuePair) (s e : Int) : List KeyValuePair :=
  if s ≥ e then []
  else
    scanRange
      (data.drop ((find_range_offsets (buildFences data) s e).1 / 16))
      (find_range_offsets (buildFences data) s e).1 s e
      (find_range_offsets (buildFences data) s e).2

/-! ### Buffer (`skip_list.cpp`)

The skip list's externally visible contents are its sorted pair sequence;
the model stores exactly that.  `random_height` outcomes are supplied by an
oracle stream carried in the engine state (empty stream defaults to height
1), and the per-node byte estimate uses the x86-64 sizes the source's
`sizeof` expressions produce: key 8 + value 8 + 8 per next-pointer slot +
24 bytes of node overhead
(`sizeof(SkipListNode) - sizeof(std::vector<SkipListNode*>)`). -/

/-- `SkipList::get` on the sorted contents. -/
def bufferGet : List KeyValuePair → Int → Option Int
  | [], _ => none
  | p :: ps, k => if p.key = k then some p.value else bufferGet ps k

/-- `SkipList::insert`: update in place on an existing key, else insert in
key order. -/
def bufferInsert : List KeyValuePair → Int → Int → List KeyValuePair
  | [], k, v => [⟨k, v⟩]
  | p :: ps, k, v =>
    if p.key = k then ⟨k, v⟩ :: ps
    else if p.key < k then p :: bufferInsert ps k v
    else ⟨k, v⟩ :: p :: ps

/-- `SkipList::range`: the in-order walk collecting `start ≤ key < end`,
i.e. the filter of the sorted contents. -/
def bufferRange (buf : List KeyValuePair) (s e : Int) : List KeyValuePair :=
  buf.filter fun p => decide (s ≤ p.key) && decide (p.key < e)

/-- `SkipList::estimate_pair_size` with x86-64 type sizes. -/
def estimate_pair_size (height : Nat) : Nat := 8 + 8 + 8 * height + 24

/-! ### Levels and engine state (`lsm_tree.cpp`) -/

/-- Tunables from `constants.h`. -/
def TIERING_THRESHOLD : Nat := 4

def LAZY_LEVELING_THRESHOLD : Nat := 3

def DEFAULT_BUFFER_SIZE_BYTES : Nat := 4 * 1024 * 1024

def SIZE_RATIO : Nat := 4

def INITIAL_MAX_LEVEL : Nat := 6

inductive CompactionStrategy
  | TIERING
  | LAZY_LEVELING
  | LEVELING
deriving DecidableEq, Repr

/-- A level: its strategy and its runs, stored newest last. -/
structure Level where
  strategy : CompactionStrategy
  runs : List (List KeyValuePair)
deriving DecidableEq, Repr

instance : Inhabited Level := ⟨⟨.LEVELING, []⟩⟩

/-- `Level::needs_compaction`. -/
def needs_compaction (l : Level) : Bool :=
  match l.strategy with
  | .TIERING => decide (TIERING_THRESHOLD ≤ l.runs.length)
  | .LAZY_LEVELING => decide (LAZY_LEVELING_THRESHOLD ≤ l.runs.length)
  | .LEVELING => decide (1 < l.runs.length)

/-- Engine state.  `bufferCap` is the runtime-adjustable
`constants::BUFFER_SIZE_BYTES`, `compactionEnabled` is
`constants::COMPACTION_ENABLED`; `heights` is the oracle stream of
`random_height` outcomes.  The engine model carries no Bloom or fence
sidecar state: both are rebuilt deterministically from a run's pairs and
are modelled inside `runGet` / `runRange`. -/
structure LSMTree where
  bufferPairs : List KeyValuePair
  bufferBytes : Nat
  heights : List Nat
  levels : List Level
  maxLevel : Nat
  bufferCap : Nat
  compactionEnabled : Bool
deriving DecidableEq, Repr

def levelAt (st : LSMTree) (i : Nat) : Level := st.levels.getD i default

def runsAt (st : LSMTree) (i : Nat) : List (List KeyValuePair) :=
  (levelAt st i).runs

def strategyAt (st : LSMTree) (i : Nat) : CompactionStrategy :=
  (levelAt st i).strategy

def runCountAt (st : LSMTree) (i : Nat) : Nat := (runsAt st i).length

def needsAt (st : LSMTree) (i : Nat) : Bool := needs_compaction (levelAt st i)

/-- `Level::add_run` at level `i` (runs are stored newest last). -/
def addRun (st : LSMTree) (i : Nat) (data : List KeyValuePair) : LSMTree :=
  { st with levels := st.levels.set i ⟨strategyAt st i, runsAt st i ++ [data]⟩ }

/-- `Level::clear_runs` at level `i` (file deletion has no model content). -/
def clearRuns (st : LSMTree) (i : Nat) : LSMTree :=
  { st with levels := st.levels.set i ⟨strategyAt st i, []⟩ }

/-- The capacity-search loop of `LSMTree::get_target_level_for_size`,
structurally recursive on `rem = max_level - level` (the loop guard
`level < max_level` is exactly `rem > 0`).  The source computes
`level_capacity` in `double`; every value it takes is `buffer_size * 4^k`,
a product of an exactly representable integer and a power of two, so the
arithmetic is exact and `Nat` reproduces it. -/
def targetLoop (size : Nat) : Nat → Nat → Nat → Nat
  | 0, level, _ => level
  | rem + 1, level, cap =>
    if cap < size then targetLoop size rem (level + 1) (cap * SIZE_RATIO)
    else level

/-- `LSMTree::get_target_level_for_size`: start at level 1 with capacity
`BUFFER_SIZE_BYTES * SIZE_RATIO`. -/
def get_target_level_for_size (st : LSMTree) (sizeBytes : Nat) : Nat :=
  targetLoop sizeBytes (st.maxLevel - 1) 1 (st.bufferCap * SIZE_RATIO)

/-- `LSMTree::check_and_extend_levels`: when the deepest level holds runs,
append a fresh empty `LEVELING` level and bump `max_level`.  The subsequent
`rebuild_filters()` call rewrites Bloom sidecars only and has no model
content. -/
def check_and_extend_levels (st : LSMTree) : LSMTree :=
  if st.levels ≠ [] ∧ 0 < (st.levels.getLastD default).runs.length then
    { st with levels := st.levels ++ [⟨.LEVELING, []⟩], maxLevel := st.maxLevel + 1 }
  else st

/-- `LSMTree::perform_compaction`, fuel-indexed to express the cascade
recursion.  Along any chain of cascades the target level strictly
increases while `levels.size()` is unchanged (extension happens only after
the nested cascade returns), so any fuel `≥ levels.size() + 1` is never
exhausted; call sites pass exactly that. -/
def perform_compaction : Nat → Nat → LSMTree → LSMTree
  | 0, _, st => st
  | fuel + 1, level, st =>
    if st.compactionEnabled = false then st
    else
      let lvl := levelAt st level
      let allPairs := lvl.runs.flatten
      if allPairs = [] then st
      else
        let merged := mergePairs allPairs
        let totalSize := merged.length * 16
        match lvl.strategy with
        | .TIERING =>
          let next := level + 1
          let st1 :=
            if TIERING_THRESHOLD ≤ lvl.runs.length then
              if merged ≠ [] then
                let stB := clearRuns (addRun st next merged) level
                if needsAt stB next then perform_compaction fuel next stB else stB
              else clearRuns st level
            else st
          if next = st1.maxLevel ∧ 0 < runCountAt st1 next then
            check_and_extend_levels st1
          else st1
        | _ =>
          -- LAZY_LEVELING and LEVELING have identical code in the source
          let target := get_target_level_for_size st totalSize
          let st1 :=
            if level < target ∧ merged ≠ [] then
              let stB := clearRuns (addRun st target merged) level
              if needsAt stB target then perform_compaction fuel target stB else stB
            else if merged ≠ [] then addRun (clearRuns st level) level merged
            else clearRuns st level
          if level = st1.maxLevel ∧ 0 < runCountAt st1 level then
            check_and_extend_levels st1
          else st1

/-- `LSMTree::flush_buffer`: one new run (the buffer's sorted contents)
into level 1, clear the buffer, then compact level 1 if enabled and
needed. -/
def flush_buffer (st : LSMTree) : LSMTree :=
  if st.bufferPairs = [] then st
  else
    let st1 := addRun st 1 st.bufferPairs
    let st2 := { st1 with bufferPairs := [], bufferBytes := 0 }
    if st2.compactionEnabled ∧ needsAt st2 1 = true then
      perform_compaction (st2.levels.length + 1) 1 st2
    else st2

/-- The level scan of `LSMTree::compact`, fuel-indexed: `levels.size()` is
re-read every iteration and can grow by at most one per iteration (a
cascade extends at most once), and levels appended during the loop never
satisfy their compaction predicate, so `2 * levels.size() + 2` iterations
always suffice. -/
def compactLoop : Nat → Nat → LSMTree → LSMTree
  | 0, _, st => st
  | fuel + 1, i, st =>
    if i < st.levels.length then
      let st1 := if needsAt st i then perform_compaction (st.levels.length + 1) i st
        else st
      compactLoop fuel (i + 1) st1
    else st

/-- `LSMTree::compact`. -/
def compact (st : LSMTree) : LSMTree := compactLoop (2 * st.levels.length + 2) 0 st

/-- `LSMTree::put`: insert into the buffer (a new key consumes one
`random_height` outcome and adds its size estimate), then flush if the
buffer reached its byte capacity. -/
def put (st : LSMTree) (k v : Int) : LSMTree :=
  let isNew := (bufferGet st.bufferPairs k).isNone
  let h := st.heights.headD 1
  let st1 := { st with
    bufferPairs := bufferInsert st.bufferPairs k v,
    bufferBytes := st.bufferBytes + (if isNew then estimate_pair_size h else 0),
    heights := if isNew then st.heights.tail else st.heights }
  if st1.bufferCap ≤ st1.bufferBytes then flush_buffer st1 else st1

/-- `LSMTree::remove`: a put of the tombstone sentinel. -/
def remove (st : LSMTree) (k : Int) : LSMTree := put st k TOMBSTONE

/-- The per-level run scan of `LSMTree::get`: runs newest (last) first. -/
def getFromRuns : List (List KeyValuePair) → Int → Option Int
  | [], _ => none
  | r :: rs, k =>
    match runGet r k with
    | some v => some v
    | none => getFromRuns rs k

def getFromLevels : List Level → Int → Option Int
  | [], _ => none
  | lvl :: rest, k =>
    match getFromRuns lvl.runs.reverse k with
    | some v => some v
    | none => getFromLevels rest k

/-- `LSMTree::get`: the buffer first, then every level in order, runs
newest first.  The value found is returned as-is — a tombstone value is
returned like any other. -/
def get (st : LSMTree) (k : Int) : Option Int :=
  match bufferGet st.bufferPairs k with
  | some v => some v
  | none => getFromLevels st.levels k

/-- `LSMTree::range`: empty for `start ≥ end`; otherwise collect from the
buffer and from every run of every level (newest first), sort by key,
deduplicate adjacent equal keys keeping the first.  No tombstone filtering
is performed. -/
def range (st : LSMTree) (s e : Int) : List KeyValuePair :=
  if s ≥ e then []
  else
    let results := bufferRange st.bufferPairs s e ++
      (st.levels.map fun lvl =>
        (lvl.runs.reverse.map fun r => runRange r s e).flatten).flatten
    if results = [] then [] else dedupAdj (sortPairs results)

/-- Client-visible operations (C1's single-client histories). -/
inductive Op
  | put (k v : Int)
  | remove (k : Int)
  | flush
  | compact
deriving DecidableEq, Repr

def applyOp (st : LSMTree) : Op → LSMTree
  | .put k v => put st k v
  | .remove k => remove st k
  | .flush => flush_buffer st
  | .compact => compact st

def runOps (ops : List Op) (st : LSMTree) : LSMTree := ops.foldl applyOp st

/-- The level layout built by the `LSMTree` constructor: level 1 tiering,
levels 2-4 lazy leveling, all others (including the unused slot 0)
leveling. -/
def initLevels : List Level :=
  (List.range (INITIAL_MAX_LEVEL + 1)).map fun i =>
    if i = 1 then ⟨.TIERING, []⟩
    else if 2 ≤ i ∧ i ≤ 4 then ⟨.LAZY_LEVELING, []⟩
    else ⟨.LEVELING, []⟩

/-- A freshly constructed engine with nothing on disk. -/
def initState : LSMTree :=
  { bufferPairs := [], bufferBytes := 0, heights := [],
    levels := initLevels, maxLevel := INITIAL_MAX_LEVEL,
    bufferCap := DEFAULT_BUFFER_SIZE_BYTES, compactionEnabled := true }

/-- Reference semantics of a single-client history: the value of the last
`put(k, v)`, the tombstone for the last `remove(k)`, absent if `k` was
never written (flush and compact write nothing). -/
def lastWrite : List Op → Int → Option Int
  | [], _ => none
  | op :: ops, k =>
    match lastWrite ops k with
    | some v => some v
    | none =>
      match op with
      | .put k2 v => if k2 = k then some v else none
      | .remove k2 => if k2 = k then some TOMBSTONE else none
      | _ => none

/-- A history that puts key 1 into level 2 (four flushes fill level 1 to
the tiering threshold and cascade), then removes key 1 and drives the
tombstone through a second tiering compaction, which drops it. -/
def opsC1 : List Op :=
  [.put 1 100, .flush, .put 2 200, .flush, .put 3 300, .flush, .put 4 400, .flush,
   .remove 1, .flush, .put 5 500, .flush, .put 6 600, .flush, .put 7 700, .flush]

/-- C1 (failing execution): in the history `opsC1` the most recent write to
key 1 is `remove(1)`, yet `get(1)` afterwards returns 100 — the value the
`remove` had deleted.  Tiering compaction of level 1 drops the tombstone
(`perform_compaction` discards tombstones at every level, not only the
deepest) while the older run in level 2 still holds `1 ↦ 100`, so the
deleted value resurrects. -/
theorem c1_deleted_key_resurrects :
    lastWrite opsC1 1 = some TOMBSTONE ∧
      get (runOps opsC1 initState) 1 = some 100 ∧ (100 : Int) ≠ TOMBSTONE :=
  ⟨by decide, by decide, by decide⟩

/-- C2 (counterexample): after `remove(5)` on a fresh engine — so the most
recent write to key 5 is the remove — `get(5)` does not return absent: it
returns the tombstone sentinel itself.  No layer maps the sentinel to "not
found". -/
theorem c2_counterexample :
    get (runOps [.remove 5] initState) 5 = some TOMBSTONE ∧
      some TOMBSTONE ≠ (none : Option Int) :=
  ⟨by decide, by decide⟩

theorem bufferGet_bufferInsert_self (buf : List KeyValuePair) (k v : Int) :
    bufferGet (bufferInsert buf k v) k = some v := by
  induction buf with
  | nil => simp [bufferInsert, bufferGet]
  | cons p ps ih =>
    by_cases h1 : p.key = k
    · simp [bufferInsert, h1, bufferGet]
    · by_cases h2 : p.key < k
      · simp [bufferInsert, h1, h2, bufferGet, ih]
      · simp [bufferInsert, h1, h2, bufferGet]

/-- C2 (amended): after `remove(k)`, as long as the tombstone insert did
not fill the buffer (so no flush intervened), `get(k)` returns the
tombstone sentinel `INT64_MIN` as a present value — the engine performs no
tombstone-to-absent mapping. -/
theorem c2_amended_tombstone_is_returned (st : LSMTree) (k : Int)
    (h : st.bufferBytes + (if (bufferGet st.bufferPairs k).isNone
      then estimate_pair_size (st.heights.headD 1) else 0) < st.bufferCap) :
    get (remove st k) k = some TOMBSTONE := by
  unfold remove put
  simp only
  rw [if_neg (by simpa using Nat.not_le.mpr h)]
  unfold get
  rw [bufferGet_bufferInsert_self]

theorem c2_amended_tombstone_is_returned_witness :
    initState.bufferBytes + (if (bufferGet initState.bufferPairs 5).isNone
      then estimate_pair_size (initState.heights.headD 1) else 0) <
        initState.bufferCap ∧
      get (remove initState 5) 5 = some TOMBSTONE :=
  ⟨by decide, c2_amended_tombstone_is_returned initState 5 (by decide)⟩

/-- C4 (counterexample): `range` can return a pair whose value is the
tombstone sentinel — `LSMTree::range` never filters tombstones.  After
`remove(5)` on a fresh engine, `range(0, 10)` returns the tombstoned
pair. -/
theorem c4_counterexample :
    range (runOps [.remove 5] initState) 0 10 = [⟨5, TOMBSTONE⟩] ∧
      (⟨5, TOMBSTONE⟩ : KeyValuePair).value = TOMBSTONE :=
  ⟨by decide, rfl⟩

/-! ### Properties of the stable sort and the merge deduplication -/

/-- Pairs ordered by key, non-strictly. -/
def keyLE (a b : KeyValuePair) : Prop := a.key ≤ b.key

theorem mem_insertPair (p x : KeyValuePair) (l : List KeyValuePair) :
    x ∈ insertPair p l ↔ x = p ∨ x ∈ l := by
  induction l with
  | nil => simp [insertPair]
  | cons q qs ih =>
    by_cases h : q.key ≤ p.key
    · simp only [insertPair, if_pos h, List.mem_cons, ih]
      tauto
    · simp only [insertPair, if_neg h, List.mem_cons]

theorem insertPair_sorted (p : KeyValuePair) (l : List KeyValuePair)
    (hs : l.Pairwise keyLE) : (insertPair p l).Pairwise keyLE := by
  induction l with
  | nil => simp [insertPair, List.pairwise_cons]
  | cons q qs ih =>
    rw [List.pairwise_cons] at hs
    by_cases h : q.key ≤ p.key
    · rw [insertPair, if_pos h, List.pairwise_cons]
      refine ⟨?_, ih hs.2⟩
      intro x hx
      rcases (mem_insertPair p x qs).mp hx with rfl | hx'
      · exact h
      · exact hs.1 x hx'
    · rw [insertPair, if_neg h, List.pairwise_cons]
      constructor
      · intro x hx
        rcases List.mem_cons.mp hx with rfl | hx'
        · exact le_of_lt (lt_of_not_le h)
        · exact le_trans (le_of_lt (lt_of_not_le h)) (hs.1 x hx')
      · rw [List.pairwise_cons]
        exact hs


/-- Stability of the insertion: inserting `p` into a sorted list appends it
to its own equal-key group and leaves every other group unchanged. -/
theorem insertPair_filter (p : KeyValuePair) (l : List KeyValuePair)
    (hs : l.Pairwise keyLE) (k : Int) :
    (insertPair p l).filter (fun q => decide (q.key = k)) =
      l.filter (fun q => decide (q.key = k)) ++ if p.key = k then [p] else [] := by
  induction l with
  | nil =>
    by_cases hp : p.key = k <;> simp [insertPair, hp]
  | cons q qs ih =>
    rw [List.pairwise_cons] at hs
    by_cases h : q.key ≤ p.key
    · rw [insertPair, if_pos h]
      by_cases hq : q.key = k
      · rw [List.filter_cons_of_pos (by simpa using hq),
          List.filter_cons_of_pos (by simpa using hq), ih hs.2, List.cons_append]
      · rw [List.filter_cons_of_neg (by simpa using hq),
          List.filter_cons_of_neg (by simpa using hq), ih hs.2]
    · rw [insertPair, if_neg h]
      by_cases hp : p.key = k
      · rw [if_pos hp]
        have hfilter : (q :: qs).filter (fun q2 => decide (q2.key = k)) = [] := by
          rw [List.filter_eq_nil_iff]
          intro e he
          rcases List.mem_cons.mp he with rfl | he'
          · simp only [decide_eq_true_eq]
            intro hek
            exact h (le_of_eq (by rw [hek, hp]))
          · have h1 : q.key ≤ e.key := hs.1 e he'
            have h2 : p.key < q.key := lt_of_not_le h
            simp only [decide_eq_true_eq]
            intro hek
            omega
        rw [List.filter_cons_of_pos (by simpa using hp), hfilter]
        rfl
      · rw [if_neg hp, List.filter_cons_of_neg (by simpa using hp),
          List.append_nil]


/-- Sortedness of `sortPairs`, with a generalized sorted accumulator. -/
theorem foldl_insertPair_sorted (l acc : List KeyValuePair)
    (hacc : acc.Pairwise keyLE) :
    (l.foldl (fun a p => insertPair p a) acc).Pairwise keyLE := by
  induction l generalizing acc with
  | nil => exact hacc
  | cons p ps ih => exact ih _ (insertPair_sorted p acc hacc)

theorem sortPairs_sorted (l : List KeyValuePair) :
    (sortPairs l).Pairwise keyLE :=
  foldl_insertPair_sorted l [] (List.Pairwise.nil)

/-- Stability of `sortPairs`: every equal-key group appears in the sorted
output exactly as it appears in the input. -/
theorem foldl_insertPair_filter (l acc : List KeyValuePair)
    (hacc : acc.Pairwise keyLE) (k : Int) :
    (l.foldl (fun a p => insertPair p a) acc).filter
        (fun q => decide (q.key = k)) =
      acc.filter (fun q => decide (q.key = k)) ++
        l.filter (fun q => decide (q.key = k)) := by
  induction l generalizing acc with
  | nil => simp
  | cons p ps ih =>
    rw [List.foldl_cons, ih _ (insertPair_sorted p acc hacc),
      insertPair_filter p acc hacc k]
    by_cases hp : p.key = k
    · rw [if_pos hp, List.filter_cons_of_pos (by simpa using hp)]
      simp
    · rw [if_neg hp, List.filter_cons_of_neg (by simpa using hp)]
      simp

theorem sortPairs_filter (l : List KeyValuePair) (k : Int) :
    (sortPairs l).filter (fun q => decide (q.key = k)) =
      l.filter (fun q => decide (q.key = k)) := by
  have := foldl_insertPair_filter l [] List.Pairwise.nil k
  simpa [sortPairs] using this

theorem length_insertPair (p : KeyValuePair) (l : List KeyValuePair) :
    (insertPair p l).length = l.length + 1 := by
  induction l with
  | nil => rfl
  | cons q qs ih =>
    rw [insertPair]
    by_cases h : q.key ≤ p.key
    · rw [if_pos h]
      simp only [List.length_cons, ih]
    · rw [if_neg h]
      simp

theorem length_sortPairs (l : List KeyValuePair) :
    (sortPairs l).length = l.length := by
  have haux : ∀ (l2 acc : List KeyValuePair),
      (l2.foldl (fun a p => insertPair p a) acc).length =
        acc.length + l2.length := by
    intro l2
    induction l2 with
    | nil => simp
    | cons p ps ih =>
      intro acc
      rw [List.foldl_cons, ih, length_insertPair]
      simp only [List.length_cons]
      omega
  simpa [sortPairs] using haux l []

/-- Characterization of the deduplication loop on a sorted list: a pair
survives exactly when it is the last of its equal-key group (the group of
the virtual head `(ck, cv)` included) and its value is not the
tombstone. -/
theorem dedupLast_mem (l : List KeyValuePair) (ck cv : Int)
    (hs : ((⟨ck, cv⟩ : KeyValuePair) :: l).Pairwise keyLE) (x : KeyValuePair) :
    x ∈ dedupLast ck cv l ↔
      (((⟨ck, cv⟩ : KeyValuePair) :: l).filter
          (fun q => decide (q.key = x.key))).getLast? = some x ∧
        x.value ≠ TOMBSTONE := by
  induction l generalizing ck cv with
  | nil =>
    rw [dedupLast]
    by_cases hcv : cv = TOMBSTONE
    · rw [if_pos hcv]
      simp only [List.not_mem_nil, false_iff, not_and]
      intro hlast
      by_cases hk : ck = x.key
      · rw [List.filter_cons_of_pos (by simpa using hk), List.filter_nil] at hlast
        have hxe : x = ⟨ck, cv⟩ := by
          simpa using hlast.symm
        rw [hxe]
        simpa using hcv
      · rw [List.filter_cons_of_neg (by simpa using hk), List.filter_nil] at hlast
        simp at hlast
    · rw [if_neg hcv]
      constructor
      · intro hx
        have hxe : x = ⟨ck, cv⟩ := by simpa using hx
        subst hxe
        refine ⟨?_, hcv⟩
        rw [List.filter_cons_of_pos (by simp), List.filter_nil]
        rfl
      · rintro ⟨hlast, hv⟩
        by_cases hk : ck = x.key
        · rw [List.filter_cons_of_pos (by simpa using hk), List.filter_nil]
            at hlast
          have hxe : (⟨ck, cv⟩ : KeyValuePair) = x := by simpa using hlast
          simp [← hxe]
        · rw [List.filter_cons_of_neg (by simpa using hk), List.filter_nil]
            at hlast
          simp at hlast
  | cons p ps ih =>
    have hs' := hs
    rw [List.pairwise_cons] at hs'
    have hckp : ck ≤ p.key := hs'.1 p (List.mem_cons_self p ps)
    rw [dedupLast]
    by_cases hpk : p.key = ck
    · rw [if_pos hpk]
      have hps : ((⟨ck, p.value⟩ : KeyValuePair) :: ps).Pairwise keyLE := by
        rw [List.pairwise_cons]
        have h2 := hs'.2
        rw [List.pairwise_cons] at h2
        constructor
        · intro a ha
          show ck ≤ a.key
          have := h2.1 a ha
          show ck ≤ a.key
          rw [← hpk]
          exact this
        · exact h2.2
      rw [ih ck p.value hps]
      have hpeta : p = (⟨ck, p.value⟩ : KeyValuePair) := by rw [← hpk]
      have hfeq : (((⟨ck, cv⟩ : KeyValuePair) :: p :: ps).filter
          (fun q => decide (q.key = x.key))).getLast? =
          (((⟨ck, p.value⟩ : KeyValuePair) :: ps).filter
            (fun q => decide (q.key = x.key))).getLast? := by
        by_cases hk : ck = x.key
        · rw [List.filter_cons_of_pos (by simpa using hk),
            List.filter_cons_of_pos (by simp only [decide_eq_true_eq]; omega),
            List.filter_cons_of_pos (by simpa using hk),
            List.getLast?_cons_cons, hpeta]
        · rw [List.filter_cons_of_neg (by simpa using hk),
            List.filter_cons_of_neg (by simp only [decide_eq_true_eq]; omega),
            List.filter_cons_of_neg (by simpa using hk)]
      rw [hfeq]
    · rw [if_neg hpk]
      have hpps : ((⟨p.key, p.value⟩ : KeyValuePair) :: ps).Pairwise keyLE :=
        hs'.2
      rw [List.mem_append, ih p.key p.value hpps]
      have hlt : ck < p.key := by omega
      by_cases hk : ck = x.key
      · -- the probe key is the virtual head's key, strictly below p and ps
        have hfilps : ((p :: ps).filter
            (fun q => decide (q.key = x.key))) = [] := by
          rw [List.filter_eq_nil_iff]
          intro e he
          simp only [decide_eq_true_eq]
          intro hek
          rcases List.mem_cons.mp he with rfl | he2
          · omega
          · have h2 := hs'.2
            rw [List.pairwise_cons] at h2
            have hpe : p.key ≤ e.key := h2.1 e he2
            omega
        have hrhs : (((⟨ck, cv⟩ : KeyValuePair) :: p :: ps).filter
            (fun q => decide (q.key = x.key))).getLast? =
            some (⟨ck, cv⟩ : KeyValuePair) := by
          rw [List.filter_cons_of_pos (by simpa using hk), hfilps]
          rfl
        have hihfil : (((⟨p.key, p.value⟩ : KeyValuePair) :: ps).filter
            (fun q => decide (q.key = x.key))).getLast? = none := by
          rw [show ((⟨p.key, p.value⟩ : KeyValuePair) :: ps) = p :: ps from rfl,
            hfilps]
          rfl
        rw [hrhs, hihfil]
        constructor
        · rintro (hx | ⟨hnone, _⟩)
          · by_cases hcv : cv = TOMBSTONE
            · rw [if_pos hcv] at hx
              simp at hx
            · rw [if_neg hcv] at hx
              have hxe : x = ⟨ck, cv⟩ := by simpa using hx
              subst hxe
              exact ⟨rfl, hcv⟩
          · simp at hnone
        · rintro ⟨hsome, hv⟩
          left
          have hxe : x = ⟨ck, cv⟩ := (Option.some.injEq _ _ ▸ hsome).symm
          subst hxe
          rw [if_neg (by simpa using hv)]
          simp
      · -- another key: the virtual head never enters the filter
        have hheadfil : (((⟨ck, cv⟩ : KeyValuePair) :: p :: ps).filter
            (fun q => decide (q.key = x.key))) =
            ((p :: ps).filter (fun q => decide (q.key = x.key))) := by
          rw [List.filter_cons_of_neg (by simpa using hk)]
        rw [hheadfil,
          show ((⟨p.key, p.value⟩ : KeyValuePair) :: ps) = p :: ps from rfl]
        constructor
        · rintro (hx | hx)
          · exfalso
            by_cases hcv : cv = TOMBSTONE
            · rw [if_pos hcv] at hx
              simp at hx
            · rw [if_neg hcv] at hx
              have hxe : x = ⟨ck, cv⟩ := by simpa using hx
              apply hk
              rw [hxe]
          · exact hx
        · intro hx
          right
          exact hx

/-- Characterization of the merge: a pair survives `mergePairs` iff it is
the last pair of its key group in the gathered sequence and is not a
tombstone. -/
theorem mergePairs_mem (l : List KeyValuePair) (x : KeyValuePair) :
    x ∈ mergePairs l ↔
      (l.filter (fun q => decide (q.key = x.key))).getLast? = some x ∧
        x.value ≠ TOMBSTONE := by
  rw [mergePairs]
  rcases hsp : sortPairs l with _ | ⟨p, ps⟩
  · have hl : l = [] := by
      have := length_sortPairs l
      rw [hsp] at this
      exact List.eq_nil_of_length_eq_zero this.symm
    subst hl
    simp
  · have hs : ((⟨p.key, p.value⟩ : KeyValuePair) :: ps).Pairwise keyLE := by
      have := sortPairs_sorted l
      rw [hsp] at this
      simpa using this
    rw [dedupLast_mem ps p.key p.value hs x]
    have hfil : (((⟨p.key, p.value⟩ : KeyValuePair) :: ps).filter
        (fun q => decide (q.key = x.key))) =
        l.filter (fun q => decide (q.key = x.key)) := by
      have hpeta : (⟨p.key, p.value⟩ : KeyValuePair) = p := rfl
      rw [hpeta, ← hsp, sortPairs_filter]
    rw [hfil]


/-- A key lookup in one run's pairs (first — and for a run, only — match). -/
def lookupKey : List KeyValuePair → Int → Option Int
  | [], _ => none
  | p :: ps, k => if p.key = k then some p.value else lookupKey ps k

/-- Restatement of the specification's "value from the newest run
containing that key": runs are stored newest last, so search them newest
first. -/
def valueInNewestRun (runsData : List (List KeyValuePair)) (k : Int) :
    Option Int :=
  runsData.reverse.findSome? fun r => lookupKey r k

theorem filter_eq_lookupKey (r : List KeyValuePair) (k : Int)
    (hr : r.Pairwise fun a b => a.key < b.key) :
    r.filter (fun q => decide (q.key = k)) =
      match lookupKey r k with
      | some v => [⟨k, v⟩]
      | none => [] := by
  induction r with
  | nil => rfl
  | cons p ps ih =>
    rw [List.pairwise_cons] at hr
    by_cases hp : p.key = k
    · rw [List.filter_cons_of_pos (by simpa using hp)]
      have hfil : ps.filter (fun q => decide (q.key = k)) = [] := by
        rw [List.filter_eq_nil_iff]
        intro e he
        have := hr.1 e he
        simp only [decide_eq_true_eq]
        omega
      rw [hfil]
      show [p] = match lookupKey (p :: ps) k with
        | some v => [⟨k, v⟩]
        | none => []
      rw [lookupKey, if_pos hp]
      simp only
      congr 1
      rw [← hp]
    · rw [List.filter_cons_of_neg (by simpa using hp), ih hr.2]
      show _ = match lookupKey (p :: ps) k with
        | some v => [⟨k, v⟩]
        | none => []
      rw [lookupKey, if_neg hp]

/-- The last pair of a key's group across the concatenated runs is the pair
held by the newest run containing that key. -/
theorem getLast?_filter_flatten (runsData : List (List KeyValuePair))
    (hwf : ∀ r ∈ runsData, r.Pairwise fun a b => a.key < b.key) (k : Int) :
    ((runsData.flatten).filter (fun q => decide (q.key = k))).getLast? =
      (valueInNewestRun runsData k).map fun v => (⟨k, v⟩ : KeyValuePair) := by
  induction runsData with
  | nil => rfl
  | cons r rs ih =>
    have hwfr : r.Pairwise (fun a b => a.key < b.key) :=
      hwf r (List.mem_cons_self r rs)
    have hwfrs : ∀ r2 ∈ rs, r2.Pairwise fun a b => a.key < b.key :=
      fun r2 h2 => hwf r2 (List.mem_cons_of_mem r h2)
    rw [List.flatten_cons, List.filter_append, List.getLast?_append, ih hwfrs]
    have hrhs : valueInNewestRun (r :: rs) k =
        (valueInNewestRun rs k).or (lookupKey r k) := by
      rw [valueInNewestRun, List.reverse_cons, List.findSome?_append]
      congr 1
      rcases hlk : lookupKey r k with _ | v <;>
        simp [List.findSome?_cons, List.findSome?_nil, hlk]
    rw [hrhs, filter_eq_lookupKey r k hwfr]
    rcases hv : valueInNewestRun rs k with _ | v
    · rcases hlk : lookupKey r k with _ | v2
      · rfl
      · rfl
    · rfl

/-- `mergePairs` is `mergeAfterSort` at the deterministic instantiation
`sortPairs` of the sort contract. -/
theorem mergePairs_eq_mergeAfterSort (l : List KeyValuePair) :
    mergePairs l = mergeAfterSort (sortPairs l) := by
  rcases h : sortPairs l with _ | ⟨p, ps⟩
  · rw [mergePairs, mergeAfterSort, h]
  · rw [mergePairs, mergeAfterSort, h]

/-- A deterministic merge of this model preserves the newest value per
key (kept as a record of what the claim demands of the pipeline); the
claim itself fails against the code because `std::sort`'s contract does
not single out this outcome — see the C3 theorem below. -/
theorem stable_merge_keeps_newest (runsData : List (List KeyValuePair))
    (hwf : ∀ r ∈ runsData, r.Pairwise fun a b => a.key < b.key)
    (x : KeyValuePair) :
    x ∈ mergePairs runsData.flatten ↔
      valueInNewestRun runsData x.key = some x.value ∧
        x.value ≠ TOMBSTONE := by
  rw [mergePairs_mem, getLast?_filter_flatten runsData hwf x.key]
  rcases hv : valueInNewestRun runsData x.key with _ | v
  · simp
  · simp only [Option.map_some']
    constructor
    · rintro ⟨hsome, hT⟩
      have hxe : (⟨x.key, v⟩ : KeyValuePair) = x := by simpa using hsome
      have : v = x.value := by rw [← hxe]
      exact ⟨by rw [this], hT⟩
    · rintro ⟨hsome, hT⟩
      have hveq : v = x.value := by simpa using hsome
      subst hveq
      exact ⟨rfl, hT⟩

/-- C3 (failing execution): the merge does not guarantee that the newest
value per duplicated key survives.  `perform_compaction` sorts the
gathered pairs with `std::sort` and a key-only comparator
(`lsm_tree.cpp:593`); its contract fixes no order between equal keys (and
libstdc++'s introsort is not stable).  For a level whose older run holds
`1 ↦ 10` and newer run holds `1 ↦ 20`, the array `[⟨1, 20⟩, ⟨1, 10⟩]` is a
permitted sort result of the gathered pairs, and the keep-last dedup loop
that follows then emits the stale value 10 instead of the newest run's
20. -/
theorem c3_unstable_sort_keeps_stale :
    IsSortResult ([[(⟨1, 10⟩ : KeyValuePair)], [⟨1, 20⟩]]).flatten
        [⟨1, 20⟩, ⟨1, 10⟩] ∧
      valueInNewestRun [[(⟨1, 10⟩ : KeyValuePair)], [⟨1, 20⟩]] 1 =
        some 20 ∧
      mergeAfterSort [⟨1, 20⟩, ⟨1, 10⟩] = [⟨1, 10⟩] ∧
      (10 : Int) ≠ 20 :=
  ⟨⟨by decide, by decide⟩, by decide, by decide, by decide⟩


/-! ### Bloom filter parameter sizing (`optimal_bits`, C10)

The parameter computation runs on IEEE doubles; it is modelled over the
reals.  The decisive case `p = 1` is exact in both: `std::log(1.0) = 0`,
the quotient is `0`, `std::ceil` gives `0`, and the `size_t` cast keeps
`0`. -/

/-- `optimal_bits` from `bloom_filter.h`:
`m = ceil(-n * ln p / (ln 2)^2)` (the `size_t` cast of the nonnegative
result is its ceiling; `Nat.ceil` of a nonpositive real is 0, matching the
cast of `-0.0`). -/
noncomputable def optimal_bits (n : Nat) (p : Real) : Nat :=
  ⌈-(n : Real) * Real.log p / (Real.log 2 * Real.log 2)⌉₊

/-- `optimal_hash_functions` from `bloom_filter.h`:
`k = ceil((m / n) * ln 2)`. -/
noncomputable def optimal_hash_functions (m n : Nat) : Nat :=
  ⌈((m : Real) / (n : Real)) * Real.log 2⌉₊

/-- `BloomFilter::calculate_parameters` followed by the constructor's
`bits.resize(m, false)`: the filter `BloomFilter(p, n)` starts with
`max(1, k)` hash functions and `m` cleared bits. -/
noncomputable def mkBloomFilter (fprB : List Nat) (p : Real) (n : Nat) :
    BloomFilter :=
  ⟨fprB, n, max 1 (optimal_hash_functions (optimal_bits n p) n),
    List.replicate (optimal_bits n p) false⟩

/-- C10 (counterexample): the FPR `p = 1` lies in the claimed range
`0 < p ≤ 1` — and is actually produced by the Monkey allocation at the
deepest level, where `FPR = min(1, r / T^0) = 1` — yet `BloomFilter(1, n)`
computes `m = ceil(-n * ln 1 / (ln 2)^2) = 0` and allocates an *empty* bit
array, so `insert` and `might_contain` take a modulus by zero (undefined
behaviour in the C++). -/
theorem c10_counterexample :
    (0 : Real) < 1 ∧ (1 : Real) ≤ 1 ∧ 1 ≤ (1 : Nat) ∧
      (mkBloomFilter [] 1 1).bits = [] := by
  refine ⟨by norm_num, le_refl 1, le_refl 1, ?_⟩
  show List.replicate (optimal_bits 1 1) false = []
  rw [show optimal_bits 1 1 = 0 from ?_]
  · rfl
  · rw [optimal_bits, Real.log_one]
    norm_num

/-- C10 (amended): for every target rate strictly between 0 and 1 and every
expected count `n ≥ 1`, `BloomFilter(p, n)` allocates a non-empty bit
array, so the `% bits.size()` in `insert` and `might_contain` is a modulus
by a positive count. -/
theorem c10_amended_bits_positive (fprB : List Nat) (p : Real) (n : Nat)
    (h0 : 0 < p) (h1 : p < 1) (hn : 1 ≤ n) :
    0 < (mkBloomFilter fprB p n).bits.length := by
  show 0 < (List.replicate (optimal_bits n p) false).length
  rw [List.length_replicate]
  rw [optimal_bits]
  rw [Nat.ceil_pos]
  apply div_pos
  · have hlog : Real.log p < 0 := Real.log_neg h0 h1
    have hnpos : (0 : Real) < (n : Real) := by
      exact_mod_cast Nat.lt_of_lt_of_le Nat.zero_lt_one hn
    nlinarith
  · have h2 : (0 : Real) < Real.log 2 := Real.log_pos (by norm_num)
    nlinarith

theorem c10_amended_bits_positive_witness :
    (0 : Real) < 1 / 2 ∧ (1 : Real) / 2 < 1 ∧ 1 ≤ (1 : Nat) ∧
      0 < (mkBloomFilter [] (1 / 2) 1).bits.length :=
  ⟨by norm_num, by norm_num, le_refl 1,
    c10_amended_bits_positive [] (1 / 2) 1 (by norm_num) (by norm_num)
      (le_refl 1)⟩


/-! ### Bulk load (`LSMTree::bulk_load_file`, C6)

The input file is `none` (open failure, the modelled I/O error) or its pair
contents.  All `double` arithmetic in the distribution phase is exact:
capacities are `4 * 4^k` MiB, sizes are small integers, and divisions are
by powers of two — `Nat` arithmetic reproduces it.  `size_t` division by
zero is undefined behaviour in C++ and surfaces as the `ub` result. -/

inductive BulkResult
  | ok (st : LSMTree)
  | ioError (st : LSMTree)
  | ub
deriving DecidableEq, Repr

/-- The level-1-and-deeper dedup of `bulk_load_file` (lines 1112-1148):
sorted input, keep the last value per key, drop tombstones — applied only
when more than one pair is present. -/
def bulkDedup (sorted : List KeyValuePair) : List KeyValuePair :=
  match sorted with
  | [] => sorted
  | [_] => sorted
  | p :: ps => dedupLast p.key p.value ps

/-- The backward MiB distribution loop (lines 1186-1206), structurally on
the level counter: at each level take an integer number of parent-capacity
"flushes", capped by what remains.  `caps` are the per-level capacities in
MiB; the parent capacity of level 1 is the default buffer (4 MiB). -/
def distribDown (caps : List Nat) : Nat → List Nat → Nat → List Nat × Nat
  | 0, ld, rem => (ld, rem)
  | l + 1, ld, rem =>
    if rem = 0 then (ld, rem)
    else
      let prevCap := if 1 ≤ l then caps.getD (l - 1) 0 else 4
      let flushCount := rem / prevCap
      let dataFor := min (flushCount * prevCap) rem
      distribDown caps l (ld.set l dataFor) (rem - dataFor)

/-- The forward pair-placement loop (lines 1220-1254), structurally on the
number of levels left to visit. -/
def placeLoop (allPairs : List KeyValuePair) (levelData : List Nat)
    (pairsPerMB : Nat) : Nat → Nat → Nat → LSMTree → LSMTree × Nat
  | 0, _, startIdx, st => (st, startIdx)
  | rem + 1, level, startIdx, st =>
    let ld := levelData.getD (level - 1) 0
    if ld = 0 then
      placeLoop allPairs levelData pairsPerMB rem (level + 1) startIdx st
    else
      let pairCount := min (ld * pairsPerMB) (allPairs.length - startIdx)
      if 0 < pairCount then
        placeLoop allPairs levelData pairsPerMB rem (level + 1)
          (startIdx + pairCount)
          (addRun st level ((allPairs.drop startIdx).take pairCount))
      else
        placeLoop allPairs levelData pairsPerMB rem (level + 1) startIdx st

/-- The highest-used-level search for leftover pairs (lines 1263-1267). -/
def highestUsed (levelData : List Nat) : Nat → Nat
  | 0 => 0
  | h + 1 => if levelData.getD h 0 = 0 then highestUsed levelData h else h + 1

/-- `LSMTree::bulk_load_file`.  Settings are saved, tuned for loading
(100 MiB buffer, compaction off); an open failure restores both saved
settings and propagates (`ioError`); otherwise the pairs are sorted,
deduplicated, distributed across levels, compaction is re-enabled and run,
and the buffer capacity (only) is restored.  `pairs_per_mb =
all_pairs.size() / data_size_mb` divides by zero — C++ undefined
behaviour, `ub` — whenever the file holds fewer than 65536 pairs
(`data_size_mb = total_pairs * 16 / 2^20 = 0`). -/
def bulk_load_file (st0 : LSMTree) (file : Option (List KeyValuePair)) :
    BulkResult :=
  let origBuf := st0.bufferCap
  let origComp := st0.compactionEnabled
  let st := { st0 with bufferCap := 100 * 1024 * 1024, compactionEnabled := false }
  match file with
  | none => .ioError { st with bufferCap := origBuf, compactionEnabled := origComp }
  | some filePairs =>
    let totalPairs := filePairs.length
    let dataSizeBytes := totalPairs * 16
    let allPairs := bulkDedup (sortPairs filePairs)
    let dataSizeMB := dataSizeBytes / (1024 * 1024)
    let caps := (List.range st.maxLevel).map fun i => 4 * 4 ^ i
    let target :=
      match caps.findIdx? fun c => decide (dataSizeMB ≤ c) with
      | some i => i + 1
      | none => st.maxLevel
    let distrib := distribDown caps target (List.replicate st.maxLevel 0)
      dataSizeMB
    let levelData :=
      if 0 < distrib.2 then distrib.1.set 0 (distrib.1.getD 0 0 + distrib.2)
      else distrib.1
    if dataSizeMB = 0 then .ub
    else
      let pairsPerMB := allPairs.length / dataSizeMB
      let placed := placeLoop allPairs levelData pairsPerMB st.maxLevel 1 0 st
      let st2 :=
        if placed.2 < allPairs.length then
          let h := highestUsed levelData st.maxLevel
          if 0 < h then addRun placed.1 h (allPairs.drop placed.2)
          else placed.1
        else placed.1
      let st3 := compact { st2 with compactionEnabled := true }
      .ok { st3 with bufferCap := origBuf }

/-- C6 (failing execution): a well-formed 16-byte input file of a single
pair drives `bulk_load_file` into `pairs_per_mb = all_pairs.size() /
data_size_mb` with `data_size_mb = 0`: an integer division by zero, C++
undefined behaviour — neither success nor a propagated I/O error, and the
saved settings are not restored. -/
theorem c6_small_file_divides_by_zero :
    bulk_load_file initState (some [⟨1, 1⟩]) = BulkResult.ub := by decide

/-- On the modelled I/O failure (open error) both saved settings are
restored before the error propagates: the reported state is the original
one. -/
theorem bulk_load_file_ioError_restores (st : LSMTree) :
    bulk_load_file st none = BulkResult.ioError st := rfl


/-! ### Correctness of the run read path against the fence pointers -/

/-- What `binary_search` guarantees on a sorted non-empty index: the landed
index is in range, everything after it has a key above the probe, and the
landed entry's key is at or below the probe unless the probe is below the
whole index (index 0). -/
theorem binary_search_bounds (fps : List FencePointer) (key : Int)
    (hne : fps ≠ []) (hp : fps.Pairwise fun a b => a.key < b.key) :
    binary_search fps key < fps.length ∧
      (∀ j, binary_search fps key < j → j < fps.length →
        key < (fps.getD j default).key) ∧
      ((fps.getD (binary_search fps key) default).key ≤ key ∨
        binary_search fps key = 0) := by
  have hlen : 0 < fps.length := List.length_pos.mpr hne
  rw [binary_search]
  by_cases hA : key < (fps.headD default).key
  · rw [if_pos hA]
    rw [headD_eq_getD_zero, List.getD_eq_getElem _ _ hlen] at hA
    refine ⟨hlen, ?_, Or.inr rfl⟩
    intro j hj hjlen
    have := List.pairwise_iff_getElem.mp hp 0 j hlen hjlen hj
    rw [List.getD_eq_getElem _ _ hjlen]
    omega
  · rw [if_neg hA]
    by_cases hB : (fps.getLastD default).key ≤ key
    · rw [if_pos hB]
      rw [getLastD_eq_getD fps hne] at hB
      exact ⟨by omega, fun j hj hjlen => by omega, Or.inl hB⟩
    · rw [if_neg hB]
      have hleft : (fps.getD 0 default).key ≤ key := by
        rw [headD_eq_getD_zero] at hA
        exact le_of_not_lt hA
      have hres := bsLoop_correct fps key hp 0 (fps.length - 1) (by omega)
        (by omega) hleft (fun j hj hjlen => by omega)
      exact ⟨by omega, hres.2.2.2, Or.inl hres.2.2.1⟩

/-- Every fence entry built for a run is one of the run's `(key, 16 * j)`
index points. -/
theorem buildFencesLoop_mem (l : List (Int × Nat)) (curPage : Nat)
    (acc : List FencePointer) (x : FencePointer)
    (hx : x ∈ buildFencesLoop curPage acc l) :
    x ∈ acc.reverse ∨ ∃ p ∈ l, x = ⟨p.1, p.2⟩ := by
  induction l generalizing curPage acc with
  | nil => exact Or.inl hx
  | cons p rest ih =>
    rw [buildFencesLoop] at hx
    by_cases hcond : p.2 / PAGE_SIZE > curPage ∨ acc = []
    · rw [if_pos hcond] at hx
      rcases ih _ _ hx with hacc | ⟨q, hq, rfl⟩
      · rw [List.reverse_cons, List.mem_append] at hacc
        rcases hacc with h1 | h2
        · exact Or.inl h1
        · refine Or.inr ⟨p, List.mem_cons_self p rest, ?_⟩
          simpa using h2
      · exact Or.inr ⟨q, List.mem_cons_of_mem p hq, rfl⟩
    · rw [if_neg hcond] at hx
      rcases ih _ _ hx with h1 | ⟨q, hq, rfl⟩
      · exact Or.inl h1
      · exact Or.inr ⟨q, List.mem_cons_of_mem p hq, rfl⟩

theorem buildFences_mem (data : List KeyValuePair) (x : FencePointer)
    (hx : x ∈ buildFences data) :
    ∃ j, j < data.length ∧ x = ⟨(data.getD j default).key, 16 * j⟩ := by
  rcases buildFencesLoop_mem _ _ _ _ hx with h | ⟨p, hp, rfl⟩
  · simp at h
  · rw [List.mem_map] at hp
    obtain ⟨i, hi, rfl⟩ := hp
    exact ⟨i, List.mem_range.mp hi, rfl⟩

/-- The loop's first emitted entry survives at the head of the index. -/
theorem buildFencesLoop_head? (l : List (Int × Nat)) (curPage : Nat)
    (acc : List FencePointer) (hacc : acc ≠ []) :
    (buildFencesLoop curPage acc l).head? = acc.getLast? := by
  induction l generalizing curPage acc with
  | nil => exact List.head?_reverse acc
  | cons p rest ih =>
    rw [buildFencesLoop]
    by_cases hcond : p.2 / PAGE_SIZE > curPage ∨ acc = []
    · rw [if_pos hcond]
      rw [ih _ _ (List.cons_ne_nil _ _)]
      obtain ⟨a, as, rfl⟩ := List.exists_cons_of_ne_nil hacc
      exact List.getLast?_cons_cons
    · rw [if_neg hcond]
      exact ih _ _ hacc

/-- A non-empty run's fence index starts with `(first key, offset 0)`. -/
theorem buildFences_head? (data : List KeyValuePair) (hne : data ≠ []) :
    (buildFences data).head? = some ⟨(data.getD 0 default).key, 0⟩ := by
  obtain ⟨d, ds, rfl⟩ := List.exists_cons_of_ne_nil hne
  rw [buildFences]
  rw [show (d :: ds : List KeyValuePair).length = ds.length + 1 from rfl,
    List.range_succ_eq_map, List.map_cons, buildFencesLoop]
  rw [if_pos (Or.inr rfl)]
  rw [buildFencesLoop_head? _ _ _ (List.cons_ne_nil _ _)]
  rfl

theorem buildFences_ne_nil (data : List KeyValuePair) (hne : data ≠ []) :
    buildFences data ≠ [] := by
  intro hc
  have := buildFences_head? data hne
  rw [hc] at this
  simp at this

/-- Fence keys are strictly ascending for a strictly sorted run. -/
theorem buildFencesLoop_sorted (l : List (Int × Nat)) (curPage : Nat)
    (acc : List FencePointer)
    (hacc : acc.reverse.Pairwise fun a b => a.key < b.key)
    (hl : l.Pairwise fun a b => a.1 < b.1)
    (hcross : ∀ a ∈ acc, ∀ p ∈ l, a.key < p.1) :
    (buildFencesLoop curPage acc l).Pairwise fun a b => a.key < b.key := by
  induction l generalizing curPage acc with
  | nil => exact hacc
  | cons p rest ih =>
    rw [List.pairwise_cons] at hl
    rw [buildFencesLoop]
    by_cases hcond : p.2 / PAGE_SIZE > curPage ∨ acc = []
    · rw [if_pos hcond]
      apply ih
      · rw [List.reverse_cons]
        rw [List.pairwise_append]
        refine ⟨hacc, List.pairwise_singleton _ _, ?_⟩
        intro a ha b hb
        rw [List.mem_reverse] at ha
        rw [List.mem_singleton] at hb
        subst hb
        exact hcross a ha p (List.mem_cons_self p rest)
      · exact hl.2
      · intro a ha q hq
        rcases List.mem_cons.mp ha with rfl | ha2
        · exact hl.1 q hq
        · exact hcross a ha2 q (List.mem_cons_of_mem p hq)
    · rw [if_neg hcond]
      apply ih
      · exact hacc
      · exact hl.2
      · intro a ha q hq
        exact hcross a ha q (List.mem_cons_of_mem p hq)

theorem buildFences_sorted (data : List KeyValuePair)
    (hd : data.Pairwise fun a b => a.key < b.key) :
    (buildFences data).Pairwise fun a b => a.key < b.key := by
  apply buildFencesLoop_sorted
  · exact List.Pairwise.nil
  · rw [List.pairwise_map]
    rw [List.pairwise_iff_getElem]
    intro i j hi hj hij
    simp only [List.length_range] at hi hj
    rw [List.getElem_range, List.getElem_range]
    have := List.pairwise_iff_getElem.mp hd i j hi hj hij
    rw [List.getD_eq_getElem _ _ hi, List.getD_eq_getElem _ _ hj]
    exact this
  · intro a ha
    simp at ha

theorem lookupKey_none_of_not_mem (l : List KeyValuePair) (k : Int)
    (h : ∀ q ∈ l, q.key ≠ k) : lookupKey l k = none := by
  induction l with
  | nil => rfl
  | cons p ps ih =>
    rw [lookupKey, if_neg (h p (List.mem_cons_self p ps))]
    exact ih fun q hq => h q (List.mem_cons_of_mem p hq)

/-- On a strictly sorted list the early-exit scan agrees with the plain
lookup. -/
theorem scanGet_eq_lookupKey (l : List KeyValuePair)
    (hl : l.Pairwise fun a b => a.key < b.key) (k : Int) :
    scanGet l k = lookupKey l k := by
  induction l with
  | nil => rfl
  | cons p ps ih =>
    rw [List.pairwise_cons] at hl
    rw [scanGet, lookupKey]
    by_cases h1 : p.key = k
    · rw [if_pos h1, if_pos h1]
    · rw [if_neg h1, if_neg h1]
      by_cases h2 : p.key > k
      · rw [if_pos h2]
        symm
        apply lookupKey_none_of_not_mem
        intro q hq
        have := hl.1 q hq
        omega
      · rw [if_neg h2]
        exact ih hl.2

theorem lookupKey_drop (l : List KeyValuePair) (n : Nat) (k : Int)
    (h : ∀ i, i < n → i < l.length → (l.getD i default).key ≠ k) :
    lookupKey (l.drop n) k = lookupKey l k := by
  induction n generalizing l with
  | zero => rfl
  | succ n ih =>
    cases l with
    | nil => rfl
    | cons p ps =>
      rw [List.drop_succ_cons]
      rw [lookupKey,
        if_neg (show ¬ p.key = k from h 0 (Nat.succ_pos n) (by simp))]
      exact ih ps fun i hi hilen => h (i + 1) (by omega) (by simpa using hilen)

/-- `Run::get` (Bloom check aside) equals the plain key lookup on the run's
sorted pairs: the fence seek skips only pairs with smaller keys. -/
theorem runGet_eq_lookupKey (data : List KeyValuePair)
    (hd : data.Pairwise fun a b => a.key < b.key) (k : Int) :
    runGet data k = lookupKey data k := by
  by_cases hne : data = []
  · subst hne
    simp [runGet, buildFences, buildFencesLoop, find_offset, scanGet, lookupKey]
  · have hfne : buildFences data ≠ [] := buildFences_ne_nil data hne
    have hfs := buildFences_sorted data hd
    have hb := binary_search_bounds (buildFences data) k hfne hfs
    rw [runGet]
    rw [show find_offset (buildFences data) k =
      ((buildFences data).getD (binary_search (buildFences data) k)
        default).offset from by rw [find_offset, if_neg hfne]]
    rcases hb.2.2 with hle | hzero
    · have hmem : (buildFences data).getD (binary_search (buildFences data) k)
          default ∈ buildFences data := by
        rw [List.getD_eq_getElem _ _ hb.1]
        exact List.getElem_mem hb.1
      obtain ⟨j, hj, hentry⟩ := buildFences_mem data _ hmem
      rw [hentry]
      simp only
      rw [Nat.mul_div_cancel_left j (by norm_num : (0 : Nat) < 16)]
      rw [scanGet_eq_lookupKey _ (List.Pairwise.sublist (List.drop_sublist _ _) hd)]
      apply lookupKey_drop
      intro i hij hilen
      have hlt := List.pairwise_iff_getElem.mp hd i j (by omega) hj hij
      rw [hentry] at hle
      simp only at hle
      rw [List.getD_eq_getElem _ _ hilen]
      rw [List.getD_eq_getElem _ _ hj] at hle
      omega
    · rw [hzero]
      have hhead := buildFences_head? data hne
      have hget0 : (buildFences data).getD 0 default =
          ⟨(data.getD 0 default).key, 0⟩ := by
        obtain ⟨f, fs, hf⟩ := List.exists_cons_of_ne_nil hfne
        rw [hf]
        rw [hf] at hhead
        simpa using hhead
      rw [hget0]
      simp only
      rw [show (0 : Nat) / 16 = 0 from rfl, List.drop_zero]
      exact scanGet_eq_lookupKey data hd k


theorem scanRange_props (l : List KeyValuePair) (pos : Nat) (s e : Int)
    (bound : Option Nat) (x : KeyValuePair)
    (hx : x ∈ scanRange l pos s e bound) :
    x ∈ l ∧ s ≤ x.key ∧ x.key < e := by
  induction l generalizing pos with
  | nil => simp [scanRange] at hx
  | cons p ps ih =>
    rw [scanRange] at hx
    by_cases hstop : rangeStop pos bound = true
    · rw [if_pos hstop] at hx
      simp at hx
    · rw [if_neg hstop] at hx
      rw [List.mem_append] at hx
      rcases hx with hx | hx
      · by_cases hin : s ≤ p.key ∧ p.key < e
        · rw [if_pos hin] at hx
          rw [List.mem_singleton] at hx
          rw [hx]
          exact ⟨List.mem_cons_self p ps, hin⟩
        · rw [if_neg hin] at hx
          simp at hx
      · by_cases hbrk : e ≤ p.key
        · rw [if_pos hbrk] at hx
          simp at hx
        · rw [if_neg hbrk] at hx
          obtain ⟨hmem, hr⟩ := ih (pos + 16) hx
          exact ⟨List.mem_cons_of_mem p hmem, hr⟩

theorem scanRange_sublist (l : List KeyValuePair) (pos : Nat) (s e : Int)
    (bound : Option Nat) : (scanRange l pos s e bound).Sublist l := by
  induction l generalizing pos with
  | nil => simp [scanRange]
  | cons p ps ih =>
    rw [scanRange]
    by_cases hstop : rangeStop pos bound = true
    · rw [if_pos hstop]
      exact List.nil_sublist _
    · rw [if_neg hstop]
      by_cases hin : s ≤ p.key ∧ p.key < e
      · rw [if_pos hin]
        by_cases hbrk : e ≤ p.key
        · rw [if_pos hbrk]
          simp only [List.singleton_append, List.append_nil]
          exact List.Sublist.cons₂ p (List.nil_sublist ps)
        · rw [if_neg hbrk]
          simpa using List.Sublist.cons₂ p (ih (pos + 16))
      · rw [if_neg hin]
        by_cases hbrk : e ≤ p.key
        · rw [if_pos hbrk]
          simp
        · rw [if_neg hbrk]
          simpa using List.Sublist.cons p (ih (pos + 16))

/-- The scan reaches and emits any in-range element whose position is
strictly below the byte bound (when one is set). -/
theorem scanRange_mem_of (l : List KeyValuePair) (pos : Nat) (s e : Int)
    (bound : Option Nat) (m : Nat) (hm : m < l.length)
    (hsort : l.Pairwise fun a b => a.key < b.key)
    (hr1 : s ≤ (l.getD m default).key) (hr2 : (l.getD m default).key < e)
    (hbound : ∀ m2, m2 ≤ m → ∀ b, bound = some b →
      pos + 16 * m2 + 16 ≤ b) :
    l.getD m default ∈ scanRange l pos s e bound := by
  induction l generalizing pos m with
  | nil => simp at hm
  | cons p ps ih =>
    rw [scanRange]
    have hnostop : ¬ (rangeStop pos bound = true) := by
      rcases bound with _ | b
      · simp [rangeStop]
      · have h0 := hbound 0 (Nat.zero_le m) b rfl
        simp only [rangeStop, decide_eq_true_eq]
        omega
    rw [if_neg hnostop]
    rw [List.pairwise_cons] at hsort
    cases m with
    | zero =>
      have hp : (p :: ps).getD 0 default = p := rfl
      rw [hp] at hr1 hr2 ⊢
      rw [if_pos ⟨hr1, hr2⟩]
      exact List.mem_append_left _ (List.mem_singleton.mpr rfl)
    | succ m2 =>
      have hps : (p :: ps).getD (m2 + 1) default = ps.getD m2 default := rfl
      rw [hps] at hr1 hr2 ⊢
      have hm2 : m2 < ps.length := by simpa using hm
      have hpx : p.key < (ps.getD m2 default).key := by
        have := hsort.1 (ps.getD m2 default)
          (by rw [List.getD_eq_getElem _ _ hm2]; exact List.getElem_mem hm2)
        exact this
      have hnobrk : ¬ (e ≤ p.key) := by omega
      rw [if_neg hnobrk]
      apply List.mem_append_right
      apply ih (pos + 16) m2 hm2 hsort.2 hr1 hr2
      intro m3 hm3 b hb
      have := hbound (m3 + 1) (by omega) b hb
      omega

theorem lookupKey_eq_some_iff (l : List KeyValuePair)
    (hl : l.Pairwise fun a b => a.key < b.key) (k v : Int) :
    lookupKey l k = some v ↔ (⟨k, v⟩ : KeyValuePair) ∈ l := by
  induction l with
  | nil => simp [lookupKey]
  | cons p ps ih =>
    rw [List.pairwise_cons] at hl
    rw [lookupKey]
    by_cases h1 : p.key = k
    · rw [if_pos h1]
      constructor
      · intro hv
        have hv2 : p.value = v := by simpa using hv
        have : p = ⟨k, v⟩ := by
          rw [show p = (⟨p.key, p.value⟩ : KeyValuePair) from rfl, h1, hv2]
        rw [← this]
        exact List.mem_cons_self p ps
      · intro hmem
        rcases List.mem_cons.mp hmem with heq | hmem2
        · rw [← heq]
        · exfalso
          have := hl.1 _ hmem2
          simp only at this
          omega
    · rw [if_neg h1]
      rw [ih hl.2]
      constructor
      · exact fun h => List.mem_cons_of_mem p h
      · intro hmem
        rcases List.mem_cons.mp hmem with heq | hmem2
        · exfalso
          apply h1
          rw [← heq]
        · exact hmem2


theorem buildFences_getD_zero (data : List KeyValuePair) (hne : data ≠ []) :
    (buildFences data).getD 0 default =
      ⟨(data.getD 0 default).key, 0⟩ := by
  have hhead := buildFences_head? data hne
  obtain ⟨f, fs, hf⟩ := List.exists_cons_of_ne_nil (buildFences_ne_nil data hne)
  rw [hf]
  rw [hf] at hhead
  simpa using hhead

/-- `Run::range` returns exactly the run's pairs with keys in `[s, e)`: the
fence seek skips only pairs below `s` and the byte bound cuts only pairs at
or above `e`. -/
theorem runRange_mem (data : List KeyValuePair)
    (hd : data.Pairwise fun a b => a.key < b.key) (s e : Int)
    (x : KeyValuePair) :
    x ∈ runRange data s e ↔ x ∈ data ∧ s ≤ x.key ∧ x.key < e := by
  constructor
  · intro hx
    rw [runRange] at hx
    by_cases hse : s ≥ e
    · rw [if_pos hse] at hx
      simp at hx
    · rw [if_neg hse] at hx
      obtain ⟨hmem, hr⟩ := scanRange_props _ _ _ _ _ _ hx
      exact ⟨List.Sublist.mem hmem (List.drop_sublist _ _), hr⟩
  · rintro ⟨hmem, hr1, hr2⟩
    have hse : ¬ (s ≥ e) := by omega
    rw [runRange, if_neg hse]
    have hne : data ≠ [] := List.ne_nil_of_mem hmem
    have hfne : buildFences data ≠ [] := buildFences_ne_nil data hne
    have hfs := buildFences_sorted data hd
    obtain ⟨jx, hjx, hjxe⟩ := List.mem_iff_getElem.mp hmem
    have hbs := binary_search_bounds (buildFences data) s hfne hfs
    have hbe := binary_search_bounds (buildFences data) e hfne hfs
    rw [show find_range_offsets (buildFences data) s e =
      (((buildFences data).getD (binary_search (buildFences data) s)
          default).offset,
        if binary_search (buildFences data) e = (buildFences data).length - 1
        then none
        else some (((buildFences data).getD
          (binary_search (buildFences data) e + 1) default).offset)) from by
      rw [find_range_offsets, if_neg hfne]]
    -- the start offset is a pair boundary no later than x's position
    have hstart : ∃ js, js ≤ jx ∧ js < data.length ∧
        ((buildFences data).getD (binary_search (buildFences data) s)
          default).offset = 16 * js := by
      rcases hbs.2.2 with hle | hzero
      · have hm : (buildFences data).getD (binary_search (buildFences data) s)
            default ∈ buildFences data := by
          rw [List.getD_eq_getElem _ _ hbs.1]
          exact List.getElem_mem hbs.1
        obtain ⟨js, hjs, hentry⟩ := buildFences_mem data _ hm
        refine ⟨js, ?_, hjs, by rw [hentry]⟩
        by_contra hgt
        push_neg at hgt
        have hlt := List.pairwise_iff_getElem.mp hd jx js hjx hjs hgt
        rw [hentry] at hle
        simp only at hle
        rw [List.getD_eq_getElem _ _ hjs] at hle
        rw [hjxe] at hlt
        omega
      · rw [hzero, buildFences_getD_zero data hne]
        exact ⟨0, Nat.zero_le jx, by omega, rfl⟩
    obtain ⟨js, hjsle, hjslen, hoff⟩ := hstart
    dsimp only
    rw [hoff]
    rw [Nat.mul_div_cancel_left js (by norm_num : (0 : Nat) < 16)]
    have hgetd : (data.drop js).getD (jx - js) default = x := by
      rw [List.getD_eq_getElem?_getD, List.getElem?_drop]
      rw [show js + (jx - js) = jx from by omega]
      rw [List.getElem?_eq_getElem hjx, hjxe]
      rfl
    have hboundpf : ∀ m2 : Nat, m2 ≤ jx - js → ∀ b,
        (if binary_search (buildFences data) e =
              (buildFences data).length - 1 then none
            else some (((buildFences data).getD
              (binary_search (buildFences data) e + 1) default).offset) :
            Option Nat) = some b →
          16 * js + 16 * m2 + 16 ≤ b := by
      intro m2 hm2 b hb
      by_cases hlast : binary_search (buildFences data) e =
          (buildFences data).length - 1
      · rw [if_pos hlast] at hb
        simp at hb
      · rw [if_neg hlast] at hb
        have hbeq : ((buildFences data).getD
            (binary_search (buildFences data) e + 1) default).offset = b := by
          simpa using hb
        rw [← hbeq]
        have hei1 : binary_search (buildFences data) e + 1 <
            (buildFences data).length := by
          have := hbe.1
          omega
        have hm : (buildFences data).getD
            (binary_search (buildFences data) e + 1) default ∈
            buildFences data := by
          rw [List.getD_eq_getElem _ _ hei1]
          exact List.getElem_mem hei1
        obtain ⟨jb, hjb, hentry⟩ := buildFences_mem data _ hm
        have hkey : e < (data.getD jb default).key := by
          have := hbe.2.1 (binary_search (buildFences data) e + 1)
            (Nat.lt_succ_self _) hei1
          rw [hentry] at this
          exact this
        have hjxjb : jx < jb := by
          by_contra hge
          push_neg at hge
          rcases Nat.eq_or_lt_of_le hge with heq | hlt2
          · subst heq
            rw [List.getD_eq_getElem _ _ hjx, hjxe] at hkey
            omega
          · have := List.pairwise_iff_getElem.mp hd jb jx hjb hjx hlt2
            rw [List.getD_eq_getElem _ _ hjb] at hkey
            rw [hjxe] at this
            omega
        rw [hentry]
        show 16 * js + 16 * m2 + 16 ≤ 16 * jb
        omega
    rw [← hgetd]
    exact scanRange_mem_of (data.drop js) (16 * js) s e _ (jx - js)
      (by simp only [List.length_drop]; omega)
      (List.Pairwise.sublist (List.drop_sublist _ _) hd)
      (by rw [hgetd]; exact hr1)
      (by rw [hgetd]; exact hr2)
      hboundpf

/-- Key lookups inside the queried range agree between a run and its range
scan. -/
theorem lookupKey_runRange (data : List KeyValuePair)
    (hd : data.Pairwise fun a b => a.key < b.key) (s e k : Int)
    (hk1 : s ≤ k) (hk2 : k < e) :
    lookupKey (runRange data s e) k = lookupKey data k := by
  have hsr : (runRange data s e).Pairwise fun a b => a.key < b.key := by
    rw [runRange]
    by_cases hse : s ≥ e
    · rw [if_pos hse]
      exact List.Pairwise.nil
    · rw [if_neg hse]
      exact List.Pairwise.sublist
        ((scanRange_sublist _ _ _ _ _).trans (List.drop_sublist _ _)) hd
  rcases hl : lookupKey data k with _ | v
  · apply lookupKey_none_of_not_mem
    intro q hq hqk
    have hqd : q ∈ data := ((runRange_mem data hd s e q).mp hq).1
    have : lookupKey data q.key = some q.value :=
      (lookupKey_eq_some_iff data hd q.key q.value).mpr
        (by rw [show (⟨q.key, q.value⟩ : KeyValuePair) = q from rfl]; exact hqd)
    rw [hqk, hl] at this
    simp at this
  · have hmem : (⟨k, v⟩ : KeyValuePair) ∈ data :=
      (lookupKey_eq_some_iff data hd k v).mp hl
    exact (lookupKey_eq_some_iff _ hsr k v).mpr
      ((runRange_mem data hd s e _).mpr ⟨hmem, hk1, hk2⟩)


theorem bufferGet_eq_lookupKey (l : List KeyValuePair) (k : Int) :
    bufferGet l k = lookupKey l k := by
  induction l with
  | nil => rfl
  | cons p ps ih =>
    rw [bufferGet, lookupKey, ih]

theorem filter_bufferRange (buf : List KeyValuePair) (s e k : Int)
    (hk1 : s ≤ k) (hk2 : k < e) :
    (bufferRange buf s e).filter (fun q => decide (q.key = k)) =
      buf.filter (fun q => decide (q.key = k)) := by
  rw [bufferRange, List.filter_filter]
  apply List.filter_congr
  intro a _
  by_cases hp : a.key = k
  · simp [hp, hk1, hk2]
  · simp [hp]

theorem getFromRuns_append (A B : List (List KeyValuePair)) (k : Int) :
    getFromRuns (A ++ B) k = (getFromRuns A k).or (getFromRuns B k) := by
  induction A with
  | nil => rfl
  | cons r rs ih =>
    rw [List.cons_append, getFromRuns, getFromRuns, ih]
    rcases runGet r k with _ | v
    · rfl
    · rfl

theorem getFromLevels_eq_getFromRuns (levels : List Level) (k : Int) :
    getFromLevels levels k =
      getFromRuns ((levels.map fun lvl => lvl.runs.reverse).flatten) k := by
  induction levels with
  | nil => rfl
  | cons lvl rest ih =>
    rw [getFromLevels, List.map_cons, List.flatten_cons, getFromRuns_append,
      ih]
    rcases getFromRuns lvl.runs.reverse k with _ | v
    · rfl
    · rfl

/-- Head of an equal-key filter across the per-run range results: the value
of the first run (in search order) containing the key. -/
theorem headFilter_runs (RS : List (List KeyValuePair))
    (hwf : ∀ r ∈ RS, r.Pairwise fun a b => a.key < b.key) (s e k : Int)
    (hk1 : s ≤ k) (hk2 : k < e) :
    (((RS.map fun r => runRange r s e).flatten).filter
        (fun q => decide (q.key = k))).head? =
      (getFromRuns RS k).map fun v => (⟨k, v⟩ : KeyValuePair) := by
  induction RS with
  | nil => rfl
  | cons r rs ih =>
    have hwfr : r.Pairwise (fun a b => a.key < b.key) :=
      hwf r (List.mem_cons_self r rs)
    have hwfrs : ∀ r2 ∈ rs, r2.Pairwise fun a b => a.key < b.key :=
      fun r2 h2 => hwf r2 (List.mem_cons_of_mem r h2)
    have hsr : (runRange r s e).Pairwise fun a b => a.key < b.key := by
      rw [runRange]
      by_cases hse : s ≥ e
      · rw [if_pos hse]
        exact List.Pairwise.nil
      · rw [if_neg hse]
        exact List.Pairwise.sublist
          ((scanRange_sublist _ _ _ _ _).trans (List.drop_sublist _ _)) hwfr
    rw [List.map_cons, List.flatten_cons, List.filter_append, List.head?_append,
      ih hwfrs]
    rw [filter_eq_lookupKey _ k hsr, lookupKey_runRange r hwfr s e k hk1 hk2]
    rw [getFromRuns, runGet_eq_lookupKey r hwfr k]
    rcases lookupKey r k with _ | v
    · rfl
    · rfl

theorem mem_sortPairs (l : List KeyValuePair) (x : KeyValuePair) :
    x ∈ sortPairs l ↔ x ∈ l := by
  have h1 : x ∈ sortPairs l ↔
      x ∈ (sortPairs l).filter (fun q => decide (q.key = x.key)) := by
    rw [List.mem_filter]
    simp
  have h2 : x ∈ l ↔ x ∈ l.filter (fun q => decide (q.key = x.key)) := by
    rw [List.mem_filter]
    simp
  rw [h1, h2, sortPairs_filter]

theorem dedupAdjGo_subset (cur x : KeyValuePair) (l : List KeyValuePair)
    (hx : x ∈ dedupAdjGo cur l) : x = cur ∨ x ∈ l := by
  induction l generalizing cur with
  | nil => exact Or.inl (by simpa [dedupAdjGo] using hx)
  | cons q rest ih =>
    rw [dedupAdjGo] at hx
    by_cases hq : q.key = cur.key
    · rw [if_pos hq] at hx
      rcases ih cur hx with h1 | h2
      · exact Or.inl h1
      · exact Or.inr (List.mem_cons_of_mem q h2)
    · rw [if_neg hq] at hx
      rcases List.mem_cons.mp hx with rfl | hx2
      · exact Or.inl rfl
      · rcases ih q hx2 with h1 | h2
        · exact Or.inr (h1 ▸ List.mem_cons_self q rest)
        · exact Or.inr (List.mem_cons_of_mem q h2)

theorem dedupAdjGo_sorted (cur : KeyValuePair) (l : List KeyValuePair)
    (hs : (cur :: l).Pairwise keyLE) :
    (dedupAdjGo cur l).Pairwise fun a b => a.key < b.key := by
  induction l generalizing cur with
  | nil => exact List.pairwise_singleton _ _
  | cons q rest ih =>
    rw [List.pairwise_cons] at hs
    have hrest : (q :: rest).Pairwise keyLE := hs.2
    rw [dedupAdjGo]
    by_cases hq : q.key = cur.key
    · rw [if_pos hq]
      apply ih
      rw [List.pairwise_cons]
      rw [List.pairwise_cons] at hrest
      exact ⟨fun a ha => hs.1 a (List.mem_cons_of_mem q ha), hrest.2⟩
    · rw [if_neg hq]
      rw [List.pairwise_cons]
      refine ⟨?_, ih q hrest⟩
      intro y hy
      have hcq : cur.key < q.key := by
        have := hs.1 q (List.mem_cons_self q rest)
        have hle : cur.key ≤ q.key := this
        omega
      rcases dedupAdjGo_subset q y rest hy with rfl | h2
      · exact hcq
      · rw [List.pairwise_cons] at hrest
        have := hrest.1 y h2
        have hle : q.key ≤ y.key := this
        omega

/-- On a sorted list, `std::unique` keeps exactly the head of every
equal-key group. -/
theorem dedupAdjGo_mem (cur : KeyValuePair) (l : List KeyValuePair)
    (hs : (cur :: l).Pairwise keyLE) (x : KeyValuePair) :
    x ∈ dedupAdjGo cur l ↔
      ((cur :: l).filter (fun q => decide (q.key = x.key))).head? = some x := by
  induction l generalizing cur with
  | nil =>
    rw [dedupAdjGo]
    constructor
    · intro hx
      have hxe : x = cur := by simpa using hx
      subst hxe
      rw [List.filter_cons_of_pos (by simp), List.filter_nil]
      rfl
    · intro hh
      by_cases hc : cur.key = x.key
      · rw [List.filter_cons_of_pos (by simpa using hc), List.filter_nil] at hh
        have : cur = x := by simpa using hh
        simp [this]
      · rw [List.filter_cons_of_neg (by simpa using hc), List.filter_nil] at hh
        simp at hh
  | cons q rest ih =>
    have hs' := hs
    rw [List.pairwise_cons] at hs'
    have hrest : (q :: rest).Pairwise keyLE := hs'.2
    rw [dedupAdjGo]
    by_cases hq : q.key = cur.key
    · rw [if_pos hq]
      have hcurrest : (cur :: rest).Pairwise keyLE := by
        rw [List.pairwise_cons]
        rw [List.pairwise_cons] at hrest
        exact ⟨fun a ha => hs'.1 a (List.mem_cons_of_mem q ha), hrest.2⟩
      rw [ih cur hcurrest]
      by_cases hc : cur.key = x.key
      · rw [List.filter_cons_of_pos (by simpa using hc),
          List.filter_cons_of_pos (by simpa using hc),
          List.filter_cons_of_pos (by simp only [decide_eq_true_eq]; omega)]
        rfl
      · rw [List.filter_cons_of_neg (by simpa using hc),
          List.filter_cons_of_neg (by simpa using hc),
          List.filter_cons_of_neg (by simp only [decide_eq_true_eq]; omega)]
    · rw [if_neg hq]
      have hcq : cur.key < q.key := by
        have := hs'.1 q (List.mem_cons_self q rest)
        have hle : cur.key ≤ q.key := this
        omega
      rw [List.mem_cons, ih q hrest]
      by_cases hc : cur.key = x.key
      · -- x's group is cur's group, which begins (and is decided) at cur
        have hqrest : ((q :: rest).filter
            (fun q2 => decide (q2.key = x.key))) = [] := by
          rw [List.filter_eq_nil_iff]
          intro a ha
          simp only [decide_eq_true_eq]
          intro hak
          rcases List.mem_cons.mp ha with rfl | ha2
          · omega
          · rw [List.pairwise_cons] at hrest
            have := hrest.1 a ha2
            have hle : q.key ≤ a.key := this
            omega
        have hbig : ((cur :: q :: rest).filter
            (fun q2 => decide (q2.key = x.key))) = [cur] := by
          rw [List.filter_cons, hqrest]
          simp [hc]
        rw [hbig, hqrest]
        constructor
        · rintro (rfl | hx)
          · rfl
          · simp at hx
        · intro hh
          have : cur = x := by simpa using hh
          exact Or.inl this.symm
      · have hbig : ((cur :: q :: rest).filter
            (fun q2 => decide (q2.key = x.key))) =
            ((q :: rest).filter (fun q2 => decide (q2.key = x.key))) := by
          rw [List.filter_cons]
          simp [hc]
        rw [hbig]
        constructor
        · rintro (rfl | hx)
          · exact absurd rfl hc
          · exact hx
        · intro hh
          exact Or.inr hh

theorem dedupAdj_mem (l : List KeyValuePair) (hs : l.Pairwise keyLE)
    (x : KeyValuePair) :
    x ∈ dedupAdj l ↔
      (l.filter (fun q => decide (q.key = x.key))).head? = some x := by
  cases l with
  | nil => simp [dedupAdj]
  | cons p ps => exact dedupAdjGo_mem p ps hs x

/-- Read-path well-formedness: the buffer and every run on disk hold
strictly key-ascending pairs (every run is written from a sorted,
key-deduplicated sequence). -/
def WFRead (st : LSMTree) : Prop :=
  st.bufferPairs.Pairwise (fun a b => a.key < b.key) ∧
    ∀ lvl ∈ st.levels, ∀ r ∈ lvl.runs, r.Pairwise fun a b => a.key < b.key

theorem range_eq (st : LSMTree) (s e : Int) :
    range st s e =
      if s ≥ e then []
      else
        if (bufferRange st.bufferPairs s e ++
            (st.levels.map fun lvl =>
              (lvl.runs.reverse.map fun r => runRange r s e).flatten).flatten)
            = [] then []
        else dedupAdj (sortPairs (bufferRange st.bufferPairs s e ++
            (st.levels.map fun lvl =>
              (lvl.runs.reverse.map fun r => runRange r s e).flatten).flatten)) :=
  rfl

theorem flatten_map_flatten {α β γ : Type} (L : List α) (f : α → List β)
    (g : β → List γ) :
    (L.map fun a => ((f a).map g).flatten).flatten =
      (((L.map f).flatten).map g).flatten := by
  induction L with
  | nil => rfl
  | cons a rest ih =>
    rw [List.map_cons, List.flatten_cons, ih, List.map_cons, List.flatten_cons,
      List.map_append, List.flatten_append]

theorem runRange_bounds (data : List KeyValuePair) (s e : Int)
    (x : KeyValuePair) (hx : x ∈ runRange data s e) :
    s ≤ x.key ∧ x.key < e := by
  rw [runRange] at hx
  by_cases hse : s ≥ e
  · rw [if_pos hse] at hx
    simp at hx
  · rw [if_neg hse] at hx
    exact (scanRange_props _ _ _ _ _ _ hx).2

theorem dedupAdj_subset (l : List KeyValuePair) (x : KeyValuePair)
    (hx : x ∈ dedupAdj l) : x ∈ l := by
  cases l with
  | nil => simp [dedupAdj] at hx
  | cons p ps =>
    rcases dedupAdjGo_subset p x ps hx with rfl | h2
    · exact List.mem_cons_self x ps
    · exact List.mem_cons_of_mem p h2

theorem dedupAdj_sorted (l : List KeyValuePair) (hs : l.Pairwise keyLE) :
    (dedupAdj l).Pairwise fun a b => a.key < b.key := by
  cases l with
  | nil => exact List.Pairwise.nil
  | cons p ps => exact dedupAdjGo_sorted p ps hs

theorem headFilter_buffer (buf : List KeyValuePair)
    (hwf : buf.Pairwise fun a b => a.key < b.key) (s e k : Int)
    (hk1 : s ≤ k) (hk2 : k < e) :
    ((bufferRange buf s e).filter (fun q => decide (q.key = k))).head? =
      (bufferGet buf k).map fun v => (⟨k, v⟩ : KeyValuePair) := by
  rw [filter_bufferRange buf s e k hk1 hk2, filter_eq_lookupKey buf k hwf,
    bufferGet_eq_lookupKey]
  rcases lookupKey buf k with _ | v
  · rfl
  · rfl

/-- Head of an equal-key group of the gathered range results: exactly the
value the point read path would return for that key. -/
theorem headFilter_results (st : LSMTree) (hwf : WFRead st) (s e k : Int)
    (hk1 : s ≤ k) (hk2 : k < e) :
    ((bufferRange st.bufferPairs s e ++
        (st.levels.map fun lvl =>
          (lvl.runs.reverse.map fun r => runRange r s e).flatten).flatten).filter
      (fun q => decide (q.key = k))).head? =
      (get st k).map fun v => (⟨k, v⟩ : KeyValuePair) := by
  have hRS : ∀ r ∈ (st.levels.map fun lvl => lvl.runs.reverse).flatten,
      r.Pairwise fun a b => a.key < b.key := by
    intro r hr
    rw [List.mem_flatten] at hr
    obtain ⟨l, hl, hrl⟩ := hr
    rw [List.mem_map] at hl
    obtain ⟨lvl, hlvl, rfl⟩ := hl
    exact hwf.2 lvl hlvl r (List.mem_reverse.mp hrl)
  rw [List.filter_append, List.head?_append,
    headFilter_buffer st.bufferPairs hwf.1 s e k hk1 hk2,
    flatten_map_flatten st.levels (fun lvl => lvl.runs.reverse)
      (fun r => runRange r s e),
    headFilter_runs _ hRS s e k hk1 hk2,
    ← getFromLevels_eq_getFromRuns st.levels k]
  rw [get]
  rcases hb : bufferGet st.bufferPairs k with _ | v
  · rfl
  · rfl

/-- For keys inside the requested window, membership in the output of the
deterministic model instantiation `range` is exactly agreement with the
point read path (a property of the `sortPairs` instantiation; the
`std::sort` contract itself does not guarantee it — see
`c4_amended_range_sound`). -/
theorem range_mem_char (st : LSMTree) (hwf : WFRead st) (s e : Int)
    (hse : ¬ s ≥ e) (x : KeyValuePair) (hk1 : s ≤ x.key) (hk2 : x.key < e) :
    x ∈ range st s e ↔ get st x.key = some x.value := by
  have hhead := headFilter_results st hwf s e x.key hk1 hk2
  rw [range_eq, if_neg hse]
  by_cases hres : (bufferRange st.bufferPairs s e ++
      (st.levels.map fun lvl =>
        (lvl.runs.reverse.map fun r => runRange r s e).flatten).flatten) = []
  · rw [if_pos hres]
    rw [hres] at hhead
    constructor
    · intro hx
      simp at hx
    · intro hg
      rw [hg] at hhead
      simp at hhead
  · rw [if_neg hres]
    rw [dedupAdj_mem _ (sortPairs_sorted _) x, sortPairs_filter, hhead]
    rcases hg : get st x.key with _ | v
    · simp
    · simp only [Option.map_some', Option.some.injEq]
      constructor
      · intro hx
        have : v = x.value := congrArg KeyValuePair.value hx
        rw [this]
      · intro hv
        have hveq : v = x.value := by simpa using hv
        rw [hveq]

/-- The `results` vector gathered by `LSMTree::range` before its
`std::sort` call: the buffer's in-window pairs, then every run of every
level, newest run first within a level. -/
def rangeGather (st : LSMTree) (s e : Int) : List KeyValuePair :=
  bufferRange st.bufferPairs s e ++
    (st.levels.map fun lvl =>
      (lvl.runs.reverse.map fun r => runRange r s e).flatten).flatten

/-- `LSMTree::range` with the `std::sort` output supplied explicitly:
empty for `start ≥ end` or an empty gather, else the sorted array
deduplicated by `std::unique` keeping the first of each adjacent
equal-key group. -/
def rangeWithSort (st : LSMTree) (s e : Int)
    (sorted : List KeyValuePair) : List KeyValuePair :=
  if s ≥ e then []
  else if rangeGather st s e = [] then [] else dedupAdj sorted

/-- The executable `range` is `rangeWithSort` at the deterministic
instantiation `sortPairs` of the sort contract. -/
theorem range_eq_rangeWithSort (st : LSMTree) (s e : Int) :
    range st s e = rangeWithSort st s e (sortPairs (rangeGather st s e)) :=
  rfl

/-- C4 (amended: tombstone pairs are not dropped, and which of several
gathered values for a key survives is unspecified): for every start and
end and every sort result permitted by the `std::sort` contract for the
gathered pairs, the output of `range(start, end)` is empty when
`start ≥ end`, its keys are strictly ascending (so no two returned pairs
share a key), every returned key lies in `[start, end)`, and every
returned pair is one of the gathered pairs — a key/value pair actually
held for that key by the buffer or by some run. -/
theorem c4_amended_range_sound (st : LSMTree) (s e : Int)
    (sorted : List KeyValuePair)
    (hs : IsSortResult (rangeGather st s e) sorted) :
    (s ≥ e → rangeWithSort st s e sorted = []) ∧
      ((rangeWithSort st s e sorted).Pairwise fun a b => a.key < b.key) ∧
      (∀ p ∈ rangeWithSort st s e sorted,
        (s ≤ p.key ∧ p.key < e) ∧ p ∈ rangeGather st s e) := by
  refine ⟨?_, ?_, ?_⟩
  · intro hse
    rw [rangeWithSort, if_pos hse]
  · rw [rangeWithSort]
    by_cases hse : s ≥ e
    · rw [if_pos hse]
      exact List.Pairwise.nil
    · rw [if_neg hse]
      by_cases hres : rangeGather st s e = []
      · rw [if_pos hres]
        exact List.Pairwise.nil
      · rw [if_neg hres]
        exact dedupAdj_sorted sorted hs.2
  · intro p hp
    rw [rangeWithSort] at hp
    by_cases hse : s ≥ e
    · rw [if_pos hse] at hp
      simp at hp
    · rw [if_neg hse] at hp
      by_cases hres : rangeGather st s e = []
      · rw [if_pos hres] at hp
        simp at hp
      · rw [if_neg hres] at hp
        have hpg : p ∈ rangeGather st s e :=
          hs.1.mem_iff.mp (dedupAdj_subset sorted p hp)
        refine ⟨?_, hpg⟩
        rw [rangeGather, List.mem_append] at hpg
        rcases hpg with hbuf | hlvls
        · rw [bufferRange, List.mem_filter] at hbuf
          have := hbuf.2
          simp only [Bool.and_eq_true, decide_eq_true_eq] at this
          exact this
        · rw [List.mem_flatten] at hlvls
          obtain ⟨inner, hin, hpin⟩ := hlvls
          rw [List.mem_map] at hin
          obtain ⟨lvl, _, rfl⟩ := hin
          rw [List.mem_flatten] at hpin
          obtain ⟨rr, hrr, hprr⟩ := hpin
          rw [List.mem_map] at hrr
          obtain ⟨r, _, rfl⟩ := hrr
          exact runRange_bounds r s e p hprr

/-- A concrete state for the range soundness theorem: one buffered pair,
one level-1 run, one level-2 run, with overlapping keys. -/
def c4wState : LSMTree :=
  { bufferPairs := [⟨3, 30⟩, ⟨5, TOMBSTONE⟩],
    bufferBytes := 128,
    heights := [],
    levels := [⟨.TIERING, []⟩,
      ⟨.TIERING, [[⟨3, 31⟩, ⟨6, 60⟩]]⟩,
      ⟨.LAZY_LEVELING, [[⟨4, 40⟩, ⟨6, 61⟩]]⟩],
    maxLevel := 2,
    bufferCap := DEFAULT_BUFFER_SIZE_BYTES,
    compactionEnabled := true }

theorem c4_amended_range_sound_witness :
    IsSortResult (rangeGather c4wState 3 7)
        [⟨3, 31⟩, ⟨3, 30⟩, ⟨4, 40⟩, ⟨5, TOMBSTONE⟩, ⟨6, 61⟩, ⟨6, 60⟩] ∧
      ((3 ≥ (7 : Int) → rangeWithSort c4wState 3 7
          [⟨3, 31⟩, ⟨3, 30⟩, ⟨4, 40⟩, ⟨5, TOMBSTONE⟩, ⟨6, 61⟩, ⟨6, 60⟩] =
            []) ∧
        ((rangeWithSort c4wState 3 7
            [⟨3, 31⟩, ⟨3, 30⟩, ⟨4, 40⟩, ⟨5, TOMBSTONE⟩, ⟨6, 61⟩,
              ⟨6, 60⟩]).Pairwise fun a b => a.key < b.key) ∧
        (∀ p ∈ rangeWithSort c4wState 3 7
            [⟨3, 31⟩, ⟨3, 30⟩, ⟨4, 40⟩, ⟨5, TOMBSTONE⟩, ⟨6, 61⟩, ⟨6, 60⟩],
          ((3 : Int) ≤ p.key ∧ p.key < 7) ∧ p ∈ rangeGather c4wState 3 7)) :=
  ⟨⟨by decide, by decide⟩, c4_amended_range_sound c4wState 3 7
    [⟨3, 31⟩, ⟨3, 30⟩, ⟨4, 40⟩, ⟨5, TOMBSTONE⟩, ⟨6, 61⟩, ⟨6, 60⟩]
    ⟨by decide, by decide⟩⟩

/-! ### Compaction shape invariants (C5) -/

/-- The strategy the constructor assigns to level slot `i`; extension
appends `LEVELING` levels, so every index ≥ 5 (and the unused slot 0) is
`LEVELING` as well. -/
def levelStrategy (i : Nat) : CompactionStrategy :=
  if i = 1 then .TIERING
  else if 2 ≤ i ∧ i ≤ 4 then .LAZY_LEVELING
  else .LEVELING

/-- Structural well-formedness the engine maintains: one level slot per
index `0 … max_level` (the constructor loop), at least the initial seven
slots, constructor strategies at every slot, and no empty run on disk
(`Run`'s constructors reject empty data, and compaction only adds runs
built from nonempty merge results). -/
def wfS (st : LSMTree) : Prop :=
  st.levels.length = st.maxLevel + 1 ∧
    7 ≤ st.levels.length ∧
    (∀ i, i < st.levels.length → strategyAt st i = levelStrategy i) ∧
    ∀ i, i < st.levels.length → ∀ r ∈ runsAt st i, r ≠ []

theorem levelAt_oob (st : LSMTree) (i : Nat) (h : st.levels.length ≤ i) :
    levelAt st i = default := by
  rw [levelAt, List.getD_eq_getElem?_getD, List.getElem?_eq_none h]
  rfl

theorem levelAt_mem (st : LSMTree) (i : Nat) (h : i < st.levels.length) :
    levelAt st i ∈ st.levels := by
  rw [levelAt, List.getD_eq_getElem _ _ h]
  exact List.getElem_mem h

theorem addRun_oob (st : LSMTree) (i : Nat) (d : List KeyValuePair)
    (h : st.levels.length ≤ i) : addRun st i d = st := by
  rw [addRun, List.set_eq_of_length_le h]

theorem clearRuns_oob (st : LSMTree) (i : Nat)
    (h : st.levels.length ≤ i) : clearRuns st i = st := by
  rw [clearRuns, List.set_eq_of_length_le h]

theorem levelAt_addRun_ne (st : LSMTree) (i : Nat) (d : List KeyValuePair)
    (j : Nat) (h : j ≠ i) : levelAt (addRun st i d) j = levelAt st j := by
  rw [addRun]
  rw [levelAt, levelAt]
  rw [List.getD_eq_getElem?_getD, List.getD_eq_getElem?_getD]
  rw [show ((st.levels.set i ⟨strategyAt st i, runsAt st i ++ [d]⟩)[j]?) =
    st.levels[j]? from List.getElem?_set_ne (Ne.symm h)]

theorem levelAt_addRun_self (st : LSMTree) (i : Nat) (d : List KeyValuePair)
    (h : i < st.levels.length) :
    levelAt (addRun st i d) i = ⟨strategyAt st i, runsAt st i ++ [d]⟩ := by
  rw [addRun]
  rw [levelAt]
  rw [List.getD_eq_getElem?_getD]
  rw [show ((st.levels.set i ⟨strategyAt st i, runsAt st i ++ [d]⟩)[i]?) =
    some ⟨strategyAt st i, runsAt st i ++ [d]⟩ from List.getElem?_set_self h]
  rfl

theorem levelAt_clearRuns_ne (st : LSMTree) (i : Nat) (j : Nat)
    (h : j ≠ i) : levelAt (clearRuns st i) j = levelAt st j := by
  rw [clearRuns]
  rw [levelAt, levelAt]
  rw [List.getD_eq_getElem?_getD, List.getD_eq_getElem?_getD]
  rw [show ((st.levels.set i ⟨strategyAt st i, []⟩)[j]?) =
    st.levels[j]? from List.getElem?_set_ne (Ne.symm h)]

theorem levelAt_clearRuns_self (st : LSMTree) (i : Nat)
    (h : i < st.levels.length) :
    levelAt (clearRuns st i) i = ⟨strategyAt st i, []⟩ := by
  rw [clearRuns]
  rw [levelAt]
  rw [List.getD_eq_getElem?_getD]
  rw [show ((st.levels.set i ⟨strategyAt st i, []⟩)[i]?) =
    some ⟨strategyAt st i, []⟩ from List.getElem?_set_self h]
  rfl

theorem runsAt_clearRuns_self (st : LSMTree) (i : Nat) :
    runsAt (clearRuns st i) i = [] := by
  by_cases h : i < st.levels.length
  · rw [runsAt, levelAt_clearRuns_self st i h]
  · rw [clearRuns_oob st i (Nat.le_of_not_lt h), runsAt,
      levelAt_oob st i (Nat.le_of_not_lt h)]
    rfl

theorem length_addRun (st : LSMTree) (i : Nat) (d : List KeyValuePair) :
    (addRun st i d).levels.length = st.levels.length := by
  rw [addRun]
  exact List.length_set _ _ _

theorem length_clearRuns (st : LSMTree) (i : Nat) :
    (clearRuns st i).levels.length = st.levels.length := by
  rw [clearRuns]
  exact List.length_set _ _ _

theorem strategyAt_addRun (st : LSMTree) (i : Nat) (d : List KeyValuePair)
    (j : Nat) : strategyAt (addRun st i d) j = strategyAt st j := by
  by_cases hj : j = i
  · subst hj
    by_cases h : j < st.levels.length
    · rw [strategyAt, levelAt_addRun_self st j d h]
    · rw [addRun_oob st j d (Nat.le_of_not_lt h)]
  · rw [strategyAt, levelAt_addRun_ne st i d j hj, strategyAt]

theorem strategyAt_clearRuns (st : LSMTree) (i : Nat) (j : Nat) :
    strategyAt (clearRuns st i) j = strategyAt st j := by
  by_cases hj : j = i
  · subst hj
    by_cases h : j < st.levels.length
    · rw [strategyAt, levelAt_clearRuns_self st j h]
    · rw [clearRuns_oob st j (Nat.le_of_not_lt h)]
  · rw [strategyAt, levelAt_clearRuns_ne st i j hj, strategyAt]

theorem getD_append_single (l : List Level) (x : Level) (j : Nat) :
    (l ++ [x]).getD j x = l.getD j x := by
  rcases Nat.lt_trichotomy j l.length with h | h | h
  · exact List.getD_append _ _ _ _ h
  · subst h
    rw [List.getD_eq_getElem?_getD, List.getElem?_concat_length,
      List.getD_eq_getElem?_getD, List.getElem?_eq_none (Nat.le_refl _)]
    rfl
  · rw [List.getD_eq_getElem?_getD,
      List.getElem?_eq_none (by rw [List.length_append]; simpa using h),
      List.getD_eq_getElem?_getD, List.getElem?_eq_none (Nat.le_of_lt h)]

theorem levelAt_extend (st : LSMTree) (j : Nat) :
    levelAt (check_and_extend_levels st) j = levelAt st j := by
  rw [check_and_extend_levels]
  by_cases hc : st.levels ≠ [] ∧ 0 < (st.levels.getLastD default).runs.length
  · rw [if_pos hc]
    rw [levelAt, levelAt]
    exact getD_append_single st.levels default j
  · rw [if_neg hc]

theorem strategyAt_extend (st : LSMTree) (j : Nat) :
    strategyAt (check_and_extend_levels st) j = strategyAt st j := by
  rw [strategyAt, levelAt_extend, strategyAt]

theorem runsAt_extend (st : LSMTree) (j : Nat) :
    runsAt (check_and_extend_levels st) j = runsAt st j := by
  rw [runsAt, levelAt_extend, runsAt]

theorem enabled_addRun (st : LSMTree) (i : Nat) (d : List KeyValuePair) :
    (addRun st i d).compactionEnabled = st.compactionEnabled := rfl

theorem enabled_clearRuns (st : LSMTree) (i : Nat) :
    (clearRuns st i).compactionEnabled = st.compactionEnabled := rfl

theorem enabled_extend (st : LSMTree) :
    (check_and_extend_levels st).compactionEnabled = st.compactionEnabled := by
  rw [check_and_extend_levels]
  by_cases hc : st.levels ≠ [] ∧ 0 < (st.levels.getLastD default).runs.length
  · rw [if_pos hc]
  · rw [if_neg hc]

theorem extend_cases (st : LSMTree) :
    (check_and_extend_levels st).levels.length = st.levels.length ∧
        (check_and_extend_levels st).maxLevel = st.maxLevel ∨
      (check_and_extend_levels st).levels.length = st.levels.length + 1 ∧
        (check_and_extend_levels st).maxLevel = st.maxLevel + 1 := by
  rw [check_and_extend_levels]
  by_cases hc : st.levels ≠ [] ∧ 0 < (st.levels.getLastD default).runs.length
  · rw [if_pos hc]
    right
    constructor
    · rw [List.length_append]
      rfl
    · rfl
  · rw [if_neg hc]
    left
    exact ⟨rfl, rfl⟩

theorem needsAt_lt_length (st : LSMTree) (j : Nat)
    (h : needsAt st j = true) : j < st.levels.length := by
  by_contra hge
  rw [needsAt, levelAt_oob st j (Nat.le_of_not_lt hge),
    show (default : Level) = ⟨.LEVELING, []⟩ from rfl] at h
  simp [needs_compaction] at h

theorem runCountAt_oob (st : LSMTree) (j : Nat)
    (h : st.levels.length ≤ j) : runCountAt st j = 0 := by
  rw [runCountAt, runsAt, levelAt_oob st j h]
  rfl

theorem strategyAt_oob (st : LSMTree) (j : Nat)
    (h : st.levels.length ≤ j) :
    strategyAt st j = CompactionStrategy.LEVELING := by
  rw [strategyAt, levelAt_oob st j h]
  rfl

theorem runsAt_oob (st : LSMTree) (j : Nat)
    (h : st.levels.length ≤ j) : runsAt st j = [] := by
  rw [runsAt, levelAt_oob st j h]
  rfl

theorem runsAt_addRun_self (st : LSMTree) (i : Nat) (d : List KeyValuePair)
    (h : i < st.levels.length) :
    runsAt (addRun st i d) i = runsAt st i ++ [d] := by
  rw [runsAt, levelAt_addRun_self st i d h]

theorem runsAt_addRun_ne (st : LSMTree) (i : Nat) (d : List KeyValuePair)
    (j : Nat) (h : j ≠ i) : runsAt (addRun st i d) j = runsAt st j := by
  rw [runsAt, levelAt_addRun_ne st i d j h, runsAt]

theorem runsAt_clearRuns_ne (st : LSMTree) (i : Nat) (j : Nat)
    (h : j ≠ i) : runsAt (clearRuns st i) j = runsAt st j := by
  rw [runsAt, levelAt_clearRuns_ne st i j h, runsAt]

theorem levelStrategy_ge (i : Nat) (h : 5 ≤ i) :
    levelStrategy i = CompactionStrategy.LEVELING := by
  rw [levelStrategy, if_neg (by omega), if_neg (by omega)]

theorem wfS_addRun (st : LSMTree) (i : Nat) (d : List KeyValuePair)
    (hwf : wfS st) (hd : d ≠ []) : wfS (addRun st i d) := by
  obtain ⟨hlen, hseven, hstrat, hne⟩ := hwf
  refine ⟨?_, ?_, ?_, ?_⟩
  · rw [length_addRun]
    exact hlen
  · rw [length_addRun]
    exact hseven
  · intro k hk
    rw [length_addRun] at hk
    rw [strategyAt_addRun]
    exact hstrat k hk
  · intro j hj r hr
    rw [length_addRun] at hj
    by_cases hji : j = i
    · subst hji
      rw [runsAt_addRun_self st j d hj] at hr
      rcases List.mem_append.mp hr with h1 | h2
      · exact hne j hj r h1
      · rw [List.mem_singleton] at h2
        rw [h2]
        exact hd
    · rw [runsAt_addRun_ne st i d j hji] at hr
      exact hne j hj r hr

theorem wfS_clearRuns (st : LSMTree) (i : Nat) (hwf : wfS st) :
    wfS (clearRuns st i) := by
  obtain ⟨hlen, hseven, hstrat, hne⟩ := hwf
  refine ⟨?_, ?_, ?_, ?_⟩
  · rw [length_clearRuns]
    exact hlen
  · rw [length_clearRuns]
    exact hseven
  · intro k hk
    rw [length_clearRuns] at hk
    rw [strategyAt_clearRuns]
    exact hstrat k hk
  · intro j hj r hr
    rw [length_clearRuns] at hj
    by_cases hji : j = i
    · subst hji
      rw [runsAt_clearRuns_self st j] at hr
      simp at hr
    · rw [runsAt_clearRuns_ne st i j hji] at hr
      exact hne j hj r hr

theorem wfS_extend (st : LSMTree) (hwf : wfS st) :
    wfS (check_and_extend_levels st) := by
  obtain ⟨hlen, hseven, hstrat, hne⟩ := hwf
  rcases extend_cases st with ⟨h1, h2⟩ | ⟨h1, h2⟩
  · refine ⟨?_, ?_, ?_, ?_⟩
    · rw [h1, h2]
      exact hlen
    · rw [h1]
      exact hseven
    · intro k hk
      rw [h1] at hk
      rw [strategyAt_extend]
      exact hstrat k hk
    · intro j hj r hr
      rw [h1] at hj
      rw [runsAt_extend] at hr
      exact hne j hj r hr
  · refine ⟨?_, ?_, ?_, ?_⟩
    · rw [h1, h2, hlen]
    · rw [h1]
      omega
    · intro k hk
      rw [h1] at hk
      rw [strategyAt_extend]
      by_cases hklen : k < st.levels.length
      · exact hstrat k hklen
      · rw [strategyAt_oob st k (Nat.le_of_not_lt hklen)]
        rw [levelStrategy_ge k (by omega)]
    · intro j hj r hr
      rw [runsAt_extend] at hr
      by_cases hjlen : j < st.levels.length
      · exact hne j hjlen r hr
      · rw [runsAt_oob st j (Nat.le_of_not_lt hjlen)] at hr
        simp at hr

theorem runs_eq_nil_of_flatten (runs : List (List KeyValuePair))
    (hne : ∀ r ∈ runs, r ≠ []) (h : runs.flatten = []) : runs = [] := by
  rw [List.flatten_eq_nil_iff] at h
  cases runs with
  | nil => rfl
  | cons r rs =>
    exact absurd (h r (List.mem_cons_self r rs))
      (hne r (List.mem_cons_self r rs))

/-- Postcondition of `perform_compaction` entered at `level` on state
`st` with result `st'`: well-formedness and the enabled flag survive,
levels below the entry level are untouched, strategies never change,
`LEVELING` levels holding at most one run still hold at most one run, a
non-tiering entry level ends with at most one run, and at most one level
is appended. -/
def PCok (st st' : LSMTree) (level : Nat) : Prop :=
  (wfS st' ∧ st'.compactionEnabled = true) ∧
    (∀ j, j < level → levelAt st' j = levelAt st j) ∧
    (∀ j, strategyAt st' j = strategyAt st j) ∧
    (∀ j, strategyAt st j = CompactionStrategy.LEVELING →
      runCountAt st j ≤ 1 → runCountAt st' j ≤ 1) ∧
    (strategyAt st level ≠ CompactionStrategy.TIERING →
      runCountAt st' level ≤ 1) ∧
    (st'.levels.length = st.levels.length ∧ st'.maxLevel = st.maxLevel ∨
      st'.levels.length = st.levels.length + 1 ∧
        st'.maxLevel = st.maxLevel + 1)

theorem needsAt_false_leveling (st : LSMTree) (j : Nat)
    (h1 : strategyAt st j = CompactionStrategy.LEVELING)
    (h2 : needsAt st j = false) : runCountAt st j ≤ 1 := by
  have h1' : (levelAt st j).strategy = CompactionStrategy.LEVELING := h1
  simp only [needsAt, needs_compaction, h1', decide_eq_false_iff_not] at h2
  have hrc : runCountAt st j = (levelAt st j).runs.length := rfl
  omega

theorem levelStrategy_eq_one (i : Nat)
    (h : levelStrategy i = CompactionStrategy.TIERING) : i = 1 := by
  by_contra hne
  rw [levelStrategy, if_neg hne] at h
  by_cases h2 : 2 ≤ i ∧ i ≤ 4
  · rw [if_pos h2] at h
    exact CompactionStrategy.noConfusion h
  · rw [if_neg h2] at h
    exact CompactionStrategy.noConfusion h

theorem PCok_self (st : LSMTree) (level : Nat) (hwf : wfS st)
    (hen : st.compactionEnabled = true)
    (h5 : strategyAt st level ≠ CompactionStrategy.TIERING →
      runCountAt st level ≤ 1) : PCok st st level :=
  ⟨⟨hwf, hen⟩, fun _ _ => rfl, fun _ => rfl, fun _ _ h => h, h5,
    Or.inl ⟨rfl, rfl⟩⟩

theorem PCok_clearRuns (st : LSMTree) (level : Nat) (hwf : wfS st)
    (hen : st.compactionEnabled = true) :
    PCok st (clearRuns st level) level := by
  refine ⟨⟨wfS_clearRuns st level hwf, hen⟩, ?_, ?_, ?_, ?_, ?_⟩
  · intro j hj
    exact levelAt_clearRuns_ne st level j (by omega)
  · intro j
    exact strategyAt_clearRuns st level j
  · intro j _ hc
    by_cases hj : j = level
    · subst hj
      rw [runCountAt, runsAt_clearRuns_self]
      simp
    · rw [runCountAt, runsAt_clearRuns_ne st level j hj]
      exact hc
  · intro _
    rw [runCountAt, runsAt_clearRuns_self]
    simp
  · left
    exact ⟨length_clearRuns st level, rfl⟩

theorem PCok_move (st : LSMTree) (level t : Nat) (d : List KeyValuePair)
    (hwf : wfS st) (hen : st.compactionEnabled = true)
    (hlt : level < t) (hd : d ≠ [])
    (hno : needsAt (clearRuns (addRun st t d) level) t = false) :
    PCok st (clearRuns (addRun st t d) level) level := by
  have hwfB : wfS (clearRuns (addRun st t d) level) :=
    wfS_clearRuns _ level (wfS_addRun st t d hwf hd)
  refine ⟨⟨hwfB, hen⟩, ?_, ?_, ?_, ?_, ?_⟩
  · intro j hj
    rw [levelAt_clearRuns_ne _ level j (by omega),
      levelAt_addRun_ne st t d j (by omega)]
  · intro j
    rw [strategyAt_clearRuns, strategyAt_addRun]
  · intro j hL hc
    by_cases hjl : j = level
    · subst hjl
      rw [runCountAt, runsAt_clearRuns_self]
      simp
    · by_cases hjt : j = t
      · subst hjt
        refine needsAt_false_leveling _ j ?_ hno
        rw [strategyAt_clearRuns, strategyAt_addRun]
        exact hL
      · rw [runCountAt, runsAt_clearRuns_ne _ level j hjl,
          runsAt_addRun_ne st t d j hjt]
        exact hc
  · intro _
    rw [runCountAt, runsAt_clearRuns_self]
    simp
  · left
    refine ⟨?_, rfl⟩
    rw [length_clearRuns, length_addRun]

theorem PCok_cascade (st st1 : LSMTree) (level t : Nat)
    (d : List KeyValuePair)
    (hlt : level < t)
    (h1 : PCok (clearRuns (addRun st t d) level) st1 t) :
    PCok st st1 level := by
  obtain ⟨⟨hwf1, hen1⟩, hunt, hstr, hpres, hlev5, hl⟩ := h1
  have hBstrat : ∀ j, strategyAt (clearRuns (addRun st t d) level) j =
      strategyAt st j := by
    intro j
    rw [strategyAt_clearRuns, strategyAt_addRun]
  have hcount0 : runCountAt st1 level = 0 := by
    rw [runCountAt, runsAt, hunt level hlt]
    rw [show (levelAt (clearRuns (addRun st t d) level) level).runs = [] from
      runsAt_clearRuns_self (addRun st t d) level]
    rfl
  refine ⟨⟨hwf1, hen1⟩, ?_, ?_, ?_, ?_, ?_⟩
  · intro j hj
    rw [hunt j (by omega), levelAt_clearRuns_ne _ level j (by omega),
      levelAt_addRun_ne st t d j (by omega)]
  · intro j
    rw [hstr j, hBstrat j]
  · intro j hL hc
    by_cases hjl : j = level
    · subst hjl
      omega
    · by_cases hjt : j = t
      · subst hjt
        apply hlev5
        rw [hBstrat j, hL]
        intro hcon
        exact CompactionStrategy.noConfusion hcon
      · refine hpres j ?_ ?_
        · rw [hBstrat j]
          exact hL
        · rw [runCountAt, runsAt_clearRuns_ne _ level j hjl,
            runsAt_addRun_ne st t d j hjt]
          exact hc
  · intro _
    omega
  · have hBlen : (clearRuns (addRun st t d) level).levels.length =
        st.levels.length := by
      rw [length_clearRuns, length_addRun]
    have hBmax : (clearRuns (addRun st t d) level).maxLevel = st.maxLevel :=
      rfl
    rcases hl with ⟨a, b⟩ | ⟨a, b⟩
    · left
      exact ⟨by rw [a, hBlen], by rw [b, hBmax]⟩
    · right
      exact ⟨by rw [a, hBlen], by rw [b, hBmax]⟩

theorem PCok_extend_of (st st1 : LSMTree) (level : Nat)
    (h : PCok st st1 level)
    (hl : st1.levels.length = st.levels.length ∧
      st1.maxLevel = st.maxLevel) :
    PCok st (check_and_extend_levels st1) level := by
  obtain ⟨⟨hwf1, hen1⟩, hunt, hstr, hpres, hlev5, _⟩ := h
  refine ⟨⟨wfS_extend st1 hwf1, ?_⟩, ?_, ?_, ?_, ?_, ?_⟩
  · rw [enabled_extend]
    exact hen1
  · intro j hj
    rw [levelAt_extend]
    exact hunt j hj
  · intro j
    rw [strategyAt_extend]
    exact hstr j
  · intro j hL hc
    rw [runCountAt, runsAt_extend]
    exact hpres j hL hc
  · intro h5
    rw [runCountAt, runsAt_extend]
    exact hlev5 h5
  · rcases extend_cases st1 with ⟨a, b⟩ | ⟨a, b⟩
    · left
      exact ⟨by rw [a, hl.1], by rw [b, hl.2]⟩
    · right
      exact ⟨by rw [a, hl.1], by rw [b, hl.2]⟩

theorem PCok_extend_nontier (st st1 : LSMTree) (level : Nat)
    (h : PCok st st1 level) (hlev : level < st.levels.length)
    (hlen : st.levels.length = st.maxLevel + 1) :
    PCok st
      (if level = st1.maxLevel ∧ 0 < runCountAt st1 level
        then check_and_extend_levels st1 else st1) level := by
  by_cases hc : level = st1.maxLevel ∧ 0 < runCountAt st1 level
  · rw [if_pos hc]
    rcases h.2.2.2.2.2 with hl | ⟨_, m1⟩
    · exact PCok_extend_of st st1 level h hl
    · exfalso
      have := hc.1
      omega
  · rw [if_neg hc]
    exact h

theorem PCok_extend_tier (st st1 : LSMTree) (level : Nat)
    (h : PCok st st1 level) (hwf : wfS st)
    (hT : strategyAt st level = CompactionStrategy.TIERING)
    (hlev : level < st.levels.length) :
    PCok st
      (if level + 1 = st1.maxLevel ∧ 0 < runCountAt st1 (level + 1)
        then check_and_extend_levels st1 else st1) level := by
  by_cases hc : level + 1 = st1.maxLevel ∧ 0 < runCountAt st1 (level + 1)
  · rw [if_pos hc]
    rcases h.2.2.2.2.2 with hl | ⟨_, m1⟩
    · exact PCok_extend_of st st1 level h hl
    · exfalso
      have hpin := hwf.2.2.1 level hlev
      rw [hT] at hpin
      have hone : level = 1 := levelStrategy_eq_one level hpin.symm
      have hml : st.levels.length = st.maxLevel + 1 := hwf.1
      have hseven : 7 ≤ st.levels.length := hwf.2.1
      have := hc.1
      omega
  · rw [if_neg hc]
    exact h

theorem bool_eq_false {b : Bool} (h : ¬ b = true) : b = false := by
  rcases b with _ | _
  · rfl
  · exact absurd rfl h

theorem PCok_inplace (st : LSMTree) (level : Nat) (d : List KeyValuePair)
    (hwf : wfS st) (hen : st.compactionEnabled = true)
    (hlev : level < st.levels.length) (hd : d ≠ []) :
    PCok st (addRun (clearRuns st level) level d) level := by
  have hwfB : wfS (addRun (clearRuns st level) level d) :=
    wfS_addRun _ level d (wfS_clearRuns st level hwf) hd
  have hone : runCountAt (addRun (clearRuns st level) level d) level = 1 := by
    rw [runCountAt, runsAt_addRun_self _ level d
        (by rw [length_clearRuns]; exact hlev),
      runsAt_clearRuns_self]
    rfl
  refine ⟨⟨hwfB, hen⟩, ?_, ?_, ?_, ?_, ?_⟩
  · intro j hj
    rw [levelAt_addRun_ne _ level d j (by omega),
      levelAt_clearRuns_ne st level j (by omega)]
  · intro j
    rw [strategyAt_addRun, strategyAt_clearRuns]
  · intro j _ hc
    by_cases hjl : j = level
    · subst hjl
      omega
    · rw [runCountAt, runsAt_addRun_ne _ level d j hjl,
        runsAt_clearRuns_ne st level j hjl]
      exact hc
  · intro _
    omega
  · left
    refine ⟨?_, rfl⟩
    rw [length_addRun, length_clearRuns]

/-- Master specification of `perform_compaction`: with sufficient fuel on a
well-formed state with compaction enabled, the postcondition `PCok` holds.
The fuel bound `levels.size - level` suffices because every cascade target
strictly exceeds its source level and out-of-range levels never report
needing compaction. -/
theorem perform_compaction_spec :
    ∀ (fuel level : Nat) (st : LSMTree), wfS st →
      st.compactionEnabled = true → st.levels.length - level ≤ fuel →
      PCok st (perform_compaction fuel level st) level := by
  intro fuel
  induction fuel with
  | zero =>
    intro level st hwf hen hfuel
    refine PCok_self st level hwf hen ?_
    intro _
    rw [runCountAt_oob st level (by omega)]
    omega
  | succ fuel ih =>
    intro level st hwf hen hfuel
    have henf : ¬ st.compactionEnabled = false := by
      rw [hen]
      decide
    by_cases hflat : (levelAt st level).runs.flatten = []
    · have hcnt : strategyAt st level ≠ CompactionStrategy.TIERING →
          runCountAt st level ≤ 1 := by
        intro _
        by_cases hlev : level < st.levels.length
        · have hruns : runsAt st level = [] :=
            runs_eq_nil_of_flatten (runsAt st level)
              (hwf.2.2.2 level hlev) hflat
          rw [runCountAt, hruns]
          simp
        · rw [runCountAt_oob st level (Nat.le_of_not_lt hlev)]
          omega
      simp only [perform_compaction]
      rw [if_neg henf, if_pos hflat]
      exact PCok_self st level hwf hen hcnt
    · have hlev : level < st.levels.length := by
        by_contra hge
        rw [show (levelAt st level).runs = [] from
          runsAt_oob st level (Nat.le_of_not_lt hge)] at hflat
        exact hflat rfl
      rcases hst : (levelAt st level).strategy with _ | _ | _
      · -- TIERING
        have hstT : strategyAt st level = CompactionStrategy.TIERING := hst
        simp only [perform_compaction, hst]
        rw [if_neg henf, if_neg hflat]
        by_cases hthresh :
            TIERING_THRESHOLD ≤ (levelAt st level).runs.length
        · rw [if_pos hthresh]
          by_cases hmer :
              mergePairs (levelAt st level).runs.flatten ≠ []
          · rw [if_pos hmer]
            by_cases hneeds : needsAt
                (clearRuns (addRun st (level + 1)
                  (mergePairs (levelAt st level).runs.flatten)) level)
                (level + 1) = true
            · rw [if_pos hneeds]
              have hwfB : wfS (clearRuns (addRun st (level + 1)
                  (mergePairs (levelAt st level).runs.flatten)) level) :=
                wfS_clearRuns _ level (wfS_addRun st (level + 1) _ hwf hmer)
              have hBlen : (clearRuns (addRun st (level + 1)
                  (mergePairs (levelAt st level).runs.flatten))
                    level).levels.length = st.levels.length := by
                rw [length_clearRuns, length_addRun]
              have hcas := ih (level + 1) _ hwfB hen (by omega)
              exact PCok_extend_tier st _ level
                (PCok_cascade st _ level (level + 1) _ (by omega) hcas)
                hwf hstT hlev
            · rw [if_neg hneeds]
              exact PCok_extend_tier st _ level
                (PCok_move st level (level + 1) _ hwf hen (by omega) hmer
                  (bool_eq_false hneeds))
                hwf hstT hlev
          · rw [if_neg hmer]
            exact PCok_extend_tier st _ level
              (PCok_clearRuns st level hwf hen) hwf hstT hlev
        · rw [if_neg hthresh]
          exact PCok_extend_tier st st level
            (PCok_self st level hwf hen fun hne => absurd hstT hne)
            hwf hstT hlev
      · -- LAZY_LEVELING
        simp only [perform_compaction, hst]
        rw [if_neg henf, if_neg hflat]
        by_cases hmove : level < get_target_level_for_size st
              ((mergePairs (levelAt st level).runs.flatten).length * 16) ∧
            mergePairs (levelAt st level).runs.flatten ≠ []
        · rw [if_pos hmove]
          by_cases hneeds : needsAt
              (clearRuns (addRun st
                (get_target_level_for_size st
                  ((mergePairs (levelAt st level).runs.flatten).length * 16))
                (mergePairs (levelAt st level).runs.flatten)) level)
              (get_target_level_for_size st
                ((mergePairs (levelAt st level).runs.flatten).length * 16)) =
              true
          · rw [if_pos hneeds]
            have hwfB : wfS (clearRuns (addRun st
                (get_target_level_for_size st
                  ((mergePairs (levelAt st level).runs.flatten).length * 16))
                (mergePairs (levelAt st level).runs.flatten)) level) :=
              wfS_clearRuns _ level (wfS_addRun st _ _ hwf hmove.2)
            have hBlen : (clearRuns (addRun st
                (get_target_level_for_size st
                  ((mergePairs (levelAt st level).runs.flatten).length * 16))
                (mergePairs (levelAt st level).runs.flatten))
                  level).levels.length = st.levels.length := by
              rw [length_clearRuns, length_addRun]
            have htlt := needsAt_lt_length _ _ hneeds
            rw [hBlen] at htlt
            have hcas := ih (get_target_level_for_size st
                ((mergePairs (levelAt st level).runs.flatten).length * 16))
              _ hwfB hen (by omega)
            exact PCok_extend_nontier st _ level
              (PCok_cascade st _ level _ _ hmove.1 hcas) hlev hwf.1
          · rw [if_neg hneeds]
            exact PCok_extend_nontier st _ level
              (PCok_move st level _ _ hwf hen hmove.1 hmove.2
                (bool_eq_false hneeds))
              hlev hwf.1
        · rw [if_neg hmove]
          by_cases hmer : mergePairs (levelAt st level).runs.flatten ≠ []
          · rw [if_pos hmer]
            exact PCok_extend_nontier st _ level
              (PCok_inplace st level _ hwf hen hlev hmer) hlev hwf.1
          · rw [if_neg hmer]
            exact PCok_extend_nontier st _ level
              (PCok_clearRuns st level hwf hen) hlev hwf.1
      · -- LEVELING
        simp only [perform_compaction, hst]
        rw [if_neg henf, if_neg hflat]
        by_cases hmove : level < get_target_level_for_size st
              ((mergePairs (levelAt st level).runs.flatten).length * 16) ∧
            mergePairs (levelAt st level).runs.flatten ≠ []
        · rw [if_pos hmove]
          by_cases hneeds : needsAt
              (clearRuns (addRun st
                (get_target_level_for_size st
                  ((mergePairs (levelAt st level).runs.flatten).length * 16))
                (mergePairs (levelAt st level).runs.flatten)) level)
              (get_target_level_for_size st
                ((mergePairs (levelAt st level).runs.flatten).length * 16)) =
              true
          · rw [if_pos hneeds]
            have hwfB : wfS (clearRuns (addRun st
                (get_target_level_for_size st
                  ((mergePairs (levelAt st level).runs.flatten).length * 16))
                (mergePairs (levelAt st level).runs.flatten)) level) :=
              wfS_clearRuns _ level (wfS_addRun st _ _ hwf hmove.2)
            have hBlen : (clearRuns (addRun st
                (get_target_level_for_size st
                  ((mergePairs (levelAt st level).runs.flatten).length * 16))
                (mergePairs (levelAt st level).runs.flatten))
                  level).levels.length = st.levels.length := by
              rw [length_clearRuns, length_addRun]
            have htlt := needsAt_lt_length _ _ hneeds
            rw [hBlen] at htlt
            have hcas := ih (get_target_level_for_size st
                ((mergePairs (levelAt st level).runs.flatten).length * 16))
              _ hwfB hen (by omega)
            exact PCok_extend_nontier st _ level
              (PCok_cascade st _ level _ _ hmove.1 hcas) hlev hwf.1
          · rw [if_neg hneeds]
            exact PCok_extend_nontier st _ level
              (PCok_move st level _ _ hwf hen hmove.1 hmove.2
                (bool_eq_false hneeds))
              hlev hwf.1
        · rw [if_neg hmove]
          by_cases hmer : mergePairs (levelAt st level).runs.flatten ≠ []
          · rw [if_pos hmer]
            exact PCok_extend_nontier st _ level
              (PCok_inplace st level _ hwf hen hlev hmer) hlev hwf.1
          · rw [if_neg hmer]
            exact PCok_extend_nontier st _ level
              (PCok_clearRuns st level hwf hen) hlev hwf.1

theorem needsAt_true_leveling (st : LSMTree) (j : Nat)
    (h1 : strategyAt st j = CompactionStrategy.LEVELING)
    (h2 : needsAt st j = true) : 1 < runCountAt st j := by
  have h1' : (levelAt st j).strategy = CompactionStrategy.LEVELING := h1
  simp only [needsAt, needs_compaction, h1', decide_eq_true_eq] at h2
  exact h2

/-- The level scan of `LSMTree::compact`: the invariant "every `LEVELING`
level before the cursor, and every slot at or beyond the level count the
loop started with, holds at most one run" is preserved.  Slots beyond the
original count are appended `LEVELING` levels, which by the invariant never
trigger compaction when the cursor reaches them, so the level count grows
at most once per original slot and the allotted fuel suffices. -/
theorem compactLoop_spec :
    ∀ (fuel i : Nat) (st : LSMTree) (len0 : Nat), wfS st →
      st.compactionEnabled = true →
      (∀ j, len0 ≤ j → strategyAt st j = CompactionStrategy.LEVELING) →
      (∀ j, strategyAt st j = CompactionStrategy.LEVELING →
        (j < i ∨ len0 ≤ j) → runCountAt st j ≤ 1) →
      st.levels.length - i + (len0 - i) < fuel →
      ∀ j, strategyAt (compactLoop fuel i st) j =
          CompactionStrategy.LEVELING →
        runCountAt (compactLoop fuel i st) j ≤ 1 := by
  intro fuel
  induction fuel with
  | zero =>
    intro i st len0 _ _ _ _ hfuel
    exact absurd hfuel (by omega)
  | succ fuel ih =>
    intro i st len0 hwf hen hhigh hinv hfuel
    by_cases hi : i < st.levels.length
    · simp only [compactLoop]
      rw [if_pos hi]
      by_cases hneeds : needsAt st i = true
      · rw [if_pos hneeds]
        have hpc := perform_compaction_spec (st.levels.length + 1) i st hwf
          hen (by omega)
        obtain ⟨⟨hwf1, hen1⟩, hunt, hstr, hpres, hlev5, hl⟩ := hpc
        have hilen0 : i < len0 := by
          by_contra hge
          have hsi : strategyAt st i = CompactionStrategy.LEVELING :=
            hhigh i (Nat.le_of_not_lt hge)
          have hle := hinv i hsi (Or.inr (Nat.le_of_not_lt hge))
          have := needsAt_true_leveling st i hsi hneeds
          omega
        apply ih (i + 1) _ len0 hwf1 hen1
        · intro j hj
          rw [hstr j]
          exact hhigh j hj
        · intro j hsj hj
          rw [hstr j] at hsj
          rcases hj with hj | hj
          · rcases Nat.lt_or_ge j i with hji | hji
            · have hcj : runCountAt
                  (perform_compaction (st.levels.length + 1) i st) j =
                  runCountAt st j := by
                rw [runCountAt, runsAt, hunt j hji]
                rfl
              rw [hcj]
              exact hinv j hsj (Or.inl hji)
            · have hji' : j = i := by omega
              subst hji'
              refine hlev5 ?_
              rw [hsj]
              intro hcon
              exact CompactionStrategy.noConfusion hcon
          · exact hpres j hsj (hinv j hsj (Or.inr hj))
        · rcases hl with ⟨a, _⟩ | ⟨a, _⟩ <;> omega
      · rw [if_neg hneeds]
        apply ih (i + 1) st len0 hwf hen hhigh
        · intro j hsj hj
          rcases hj with hj | hj
          · rcases Nat.lt_or_ge j i with hji | hji
            · exact hinv j hsj (Or.inl hji)
            · have hji' : j = i := by omega
              subst hji'
              exact needsAt_false_leveling st j hsj (bool_eq_false hneeds)
          · exact hinv j hsj (Or.inr hj)
        · omega
    · simp only [compactLoop]
      rw [if_neg hi]
      intro j hsj
      by_cases hj : j < i
      · exact hinv j hsj (Or.inl hj)
      · rw [runCountAt_oob st j (by omega)]
        omega

/-- C5: for every level whose compaction strategy is `LEVELING`,
immediately after `compact()` returns on a structurally well-formed state
with compaction enabled, that level holds at most one run. -/
theorem c5_leveling_at_most_one_run (st : LSMTree) (hwf : wfS st)
    (hen : st.compactionEnabled = true) (j : Nat)
    (hL : strategyAt (compact st) j = CompactionStrategy.LEVELING) :
    runCountAt (compact st) j ≤ 1 := by
  rw [compact] at hL ⊢
  refine compactLoop_spec (2 * st.levels.length + 2) 0 st st.levels.length
    hwf hen ?_ ?_ (by omega) j hL
  · intro k hk
    exact strategyAt_oob st k hk
  · intro k _ hk
    rcases hk with hk | hk
    · exact absurd hk (by omega)
    · rw [runCountAt_oob st k hk]
      omega

/-- A concrete well-formed state for the compaction invariant: the
constructor layout with a `LEVELING` level (index 5) holding two runs. -/
def c5wState : LSMTree :=
  { bufferPairs := [], bufferBytes := 0, heights := [],
    levels := [⟨.LEVELING, []⟩, ⟨.TIERING, []⟩, ⟨.LAZY_LEVELING, []⟩,
      ⟨.LAZY_LEVELING, []⟩, ⟨.LAZY_LEVELING, []⟩,
      ⟨.LEVELING, [[⟨1, 10⟩], [⟨1, 20⟩, ⟨2, 30⟩]]⟩, ⟨.LEVELING, []⟩],
    maxLevel := 6, bufferCap := DEFAULT_BUFFER_SIZE_BYTES,
    compactionEnabled := true }

theorem c5_leveling_at_most_one_run_witness :
    wfS c5wState ∧ c5wState.compactionEnabled = true ∧
      strategyAt (compact c5wState) 5 = CompactionStrategy.LEVELING ∧
      runCountAt (compact c5wState) 5 ≤ 1 :=
  ⟨by unfold wfS; decide, rfl, by decide,
    c5_leveling_at_most_one_run c5wState (by unfold wfS; decide) rfl 5
      (by decide)⟩

end lsm
